import Mathlib

/-!
Verification development for the SleeckOS landing-page voice-agent dialogue
engine (`src/server/routes.ts`, which also contains the storage layer).

The TypeScript source is shallowly embedded: strings are `List Char`, the
JavaScript regular expressions used by the extractors are hand-compiled into
executable scanning functions (each definition's doc comment names the exact
source regex it implements, including JS leftmost-match and backtracking
behaviour where it is observable), awaited collaborator I/O (LLM providers,
storage, `Math.random`, `JSON.parse`) is passed in as explicit parameters,
and in-place session mutation becomes explicit state passing.
-/

namespace VA

/-- Strings of the embedded program: JS strings as lists of characters. -/
abbrev Str := List Char

/-! ### Basic character classes and string utilities (JS semantics) -/

/-- JS whitespace class `\s`, restricted to the ASCII whitespace characters
that can occur in the voice transcripts handled by the server. -/
def isWs (c : Char) : Bool :=
  c == ' ' || c == '\t' || c == '\n' || c == '\r' ||
  c == Char.ofNat 11 || c == Char.ofNat 12

/-- Regex class `\d`. -/
def isDig (c : Char) : Bool := 48 ≤ c.toNat && c.toNat ≤ 57

/-- Numeric value of a digit character. -/
def dval (c : Char) : Nat := c.toNat - 48

/-- Regex class `[a-zA-Z]`. -/
def isAlphaCh (c : Char) : Bool :=
  (97 ≤ c.toNat && c.toNat ≤ 122) || (65 ≤ c.toNat && c.toNat ≤ 90)

/-- Regex class `[a-z]` (used by the case-sensitive cleanup filters, which
run on already lower-cased text). -/
def isLowerCh (c : Char) : Bool := 97 ≤ c.toNat && c.toNat ≤ 122

/-- Regex word character `\w` = `[A-Za-z0-9_]`, used for `\b` boundaries. -/
def isWordCh (c : Char) : Bool := isAlphaCh c || isDig c || c == '_'

/-- `String.prototype.toLowerCase` (character-wise). -/
def lowerStr (s : Str) : Str := s.map Char.toLower

/-- `String.prototype.toUpperCase` (character-wise). -/
def upperStr (s : Str) : Str := s.map Char.toUpper

/-- `String.prototype.trim`. -/
def jsTrim (s : Str) : Str :=
  ((s.dropWhile isWs).reverse.dropWhile isWs).reverse

/-- Case-insensitive literal prefix test: does `s` start with literal `p`
(`p` is compared up to `Char.toLower` on both sides)? -/
def isPreCI : Str → Str → Bool
  | [], _ => true
  | _ :: _, [] => false
  | p :: ps, c :: cs => (p.toLower == c.toLower) && isPreCI ps cs

/-- Case-insensitive literal match returning the consumed input characters
and the rest, mirroring how a regex literal consumes input. -/
def matchLitCI : Str → Str → Option (Str × Str)
  | [], s => some ([], s)
  | _ :: _, [] => none
  | p :: ps, c :: cs =>
    if p.toLower == c.toLower then
      match matchLitCI ps cs with
      | some (m, r) => some (c :: m, r)
      | none => none
    else none

/-- First literal of an alternation (in regex alternation order) matching at
the current position. -/
def firstLitCI (lits : List Str) (s : Str) : Option (Str × Str) :=
  match lits with
  | [] => none
  | l :: ls => (matchLitCI l s).orElse (fun _ => firstLitCI ls s)

/-- `String.prototype.includes` (case-sensitive substring test). -/
def containsSub (p : Str) : Str → Bool
  | [] => p.isEmpty
  | c :: rest => p.isPrefixOf (c :: rest) || containsSub p rest

/-- First index at which `p` occurs in `s` (substring occurrence). -/
def indexOfSub (p : Str) : Str → Option Nat
  | [] => if p.isEmpty then some 0 else none
  | c :: rest =>
    if p.isPrefixOf (c :: rest) then some 0
    else (indexOfSub p rest).map (· + 1)

/-- `String.prototype.indexOf`: `-1` when absent. -/
def jsIndexOf (s p : Str) : Int :=
  match indexOfSub p s with
  | some n => (n : Int)
  | none => -1

/-- Clamp an `Int` index into `[0, len]` as `String.prototype.substring`
does. -/
def clampIdx (x : Int) (len : Nat) : Nat := (max 0 (min x (len : Int))).toNat

/-- `String.prototype.substring(a, b)`: clamps both arguments into range and
swaps them when `a > b`. -/
def jsSubstring (s : Str) (a b : Int) : Str :=
  let x := clampIdx a s.length
  let y := clampIdx b s.length
  let lo := min x y
  let hi := max x y
  (s.drop lo).take (hi - lo)

/-- Number of occurrences of a character. -/
def countChar (c : Char) (s : Str) : Nat := s.countP (fun x => x == c)

/-- `String.prototype.split(c)` (single-character separator). -/
def splitOnChar (c : Char) : Str → List Str
  | [] => [[]]
  | x :: rest =>
    if x == c then [] :: splitOnChar c rest
    else
      match splitOnChar c rest with
      | [] => [[x]]
      | h :: t => (x :: h) :: t

/-- Scan every start position of `s` (leftmost first), returning the first
position at which the positional matcher `f` succeeds; this is how a JS
regex engine searches for an unanchored match. -/
def scanFor (f : Str → Option α) : Str → Option α
  | [] => none
  | c :: rest => (f (c :: rest)).orElse (fun _ => scanFor f rest)

/-- Boolean variant of `scanFor`, for `RegExp.prototype.test`. -/
def scanForB (f : Str → Bool) : Str → Bool
  | [] => false
  | c :: rest => f (c :: rest) || scanForB f rest

/-- Decimal rendering of a number below 100, as JS `${n}` template
interpolation produces for the hours handled here. -/
def hourStr (n : Nat) : Str :=
  if n < 10 then [Nat.digitChar n]
  else [Nat.digitChar (n / 10), Nat.digitChar (n % 10)]

/-! ### Time-phrase parser (`parseTimeFromText`, routes.ts lines 581-622)

Each of the seven source regexes is compiled to a positional matcher
returning the numeric value of the leading `\d{1,2}` group (the source's
`parseInt(match[1])`) together with the full matched text (`match[0]`).
The `\d{1,2}` quantifier never needs backtracking here because every
follower starts with a non-digit, and `\s?` is implemented greedily with
its one-step fallback. -/

/-- `\d{1,2}` (greedy): value, matched digit characters, rest. -/
def takeDigits12 : Str → Option (Nat × Str × Str)
  | [] => none
  | [c1] => if isDig c1 then some (dval c1, [c1], []) else none
  | c1 :: c2 :: rest =>
    if isDig c1 then
      if isDig c2 then some (dval c1 * 10 + dval c2, [c1, c2], rest)
      else some (dval c1, [c1], c2 :: rest)
    else none

/-- `\s?(alt₁|alt₂|…)` with case-insensitive literal alternatives: tries to
consume one whitespace character first (greedy), falling back to no
whitespace, then matches the first alternative that fits. Returns the
consumed characters and the rest. -/
def wsOptThenLits (lits : List Str) (s : Str) : Option (Str × Str) :=
  match s with
  | c :: rest =>
    if isWs c then
      match firstLitCI lits rest with
      | some (m, r) => some (c :: m, r)
      | none => firstLitCI lits s
    else firstLitCI lits s
  | [] => none

/-- Positional matcher for `/(\d{1,2}:\d{2}\s?(AM|PM))/i`. -/
def p1At (s : Str) : Option (Nat × Str) :=
  match takeDigits12 s with
  | none => none
  | some (h, ds, r1) =>
    match r1 with
    | ':' :: m1 :: m2 :: r2 =>
      if isDig m1 && isDig m2 then
        match wsOptThenLits ["am".toList, "pm".toList] r2 with
        | some (tail, _) => some (h, ds ++ ':' :: m1 :: m2 :: tail)
        | none => none
      else none
    | _ => none

/-- Generic positional matcher for `/(\d{1,2})\s?(?:lit…)/i`, covering the
bare-AM/PM, o'clock and time-of-day patterns. -/
def pWordAt (lits : List Str) (s : Str) : Option (Nat × Str) :=
  match takeDigits12 s with
  | none => none
  | some (h, ds, r1) =>
    match wsOptThenLits lits r1 with
    | some (tail, _) => some (h, ds ++ tail)
    | none => none

/-- Positional matcher for `/(\d{1,2}\s?(AM|PM))/i`. -/
def p2At (s : Str) : Option (Nat × Str) := pWordAt ["am".toList, "pm".toList] s

/-- `/(\d{1,2})\s?(?:o'clock|oclock)/i`. -/
def p3At (s : Str) : Option (Nat × Str) := pWordAt ["o'clock".toList, "oclock".toList] s

/-- `/(\d{1,2})\s?(?:in the morning)/i`. -/
def p4At (s : Str) : Option (Nat × Str) := pWordAt ["in the morning".toList] s

/-- `/(\d{1,2})\s?(?:in the afternoon)/i`. -/
def p5At (s : Str) : Option (Nat × Str) := pWordAt ["in the afternoon".toList] s

/-- `/(\d{1,2})\s?(?:in the evening)/i`. -/
def p6At (s : Str) : Option (Nat × Str) := pWordAt ["in the evening".toList] s

/-- `/(\d{1,2})\s?(?:at night)/i`. -/
def p7At (s : Str) : Option (Nat × Str) := pWordAt ["at night".toList] s

/-- Canonical output `` `${hour}:00 ${ampm}` `` of the source's format
conversion. -/
def mkTime (h : Nat) (ap : Str) : Str := hourStr h ++ ":00 ".toList ++ ap

/-- The source's inner test `timeStr.match(/\d{1,2}\s?(AM|PM)/i)`. -/
def hasInnerAmPm (m0 : Str) : Bool := (scanFor p2At m0).isSome

/-- The `if`/`else if` normalisation chain of `parseTimeFromText` applied to
one regex match (`hour = parseInt(match[1])`, `timeStr = match[0]`); `none`
when no branch returns (the loop then falls through to the next pattern). -/
def normalizeMatch (h : Nat) (m0 : Str) : Option Str :=
  if containsSub "morning".toList m0 && Nat.ble 1 h && Nat.ble h 12 then
    some (mkTime h "AM".toList)
  else if containsSub "afternoon".toList m0 && Nat.ble h 12 then
    some (mkTime (if h == 12 then 12 else h) "PM".toList)
  else if containsSub "evening".toList m0 && Nat.ble h 12 then
    some (mkTime (if h == 12 then 12 else h) "PM".toList)
  else if containsSub "night".toList m0 && Nat.ble h 12 then
    some (mkTime (if h == 12 then 12 else h) "PM".toList)
  else if hasInnerAmPm m0 then
    some (mkTime h (if containsSub "AM".toList (upperStr m0) then "AM".toList else "PM".toList))
  else if containsSub ":".toList m0 then
    some m0
  else none

/-- The seven time patterns in source priority order. -/
def timePatterns : List (Str → Option (Nat × Str)) :=
  [p1At, p2At, p3At, p4At, p5At, p6At, p7At]

/-- The `for (const pattern of timePatterns)` loop: the first pattern that
matches enters the normalisation chain; if no branch of the chain returns,
the loop continues with the next pattern. -/
def parseTimeGo : List (Str → Option (Nat × Str)) → Str → Option Str
  | [], _ => none
  | p :: ps, text =>
    match scanFor p text with
    | some (h, m0) =>
      match normalizeMatch h m0 with
      | some r => some r
      | none => parseTimeGo ps text
    | none => parseTimeGo ps text

/-- `parseTimeFromText` (routes.ts lines 581-622). -/
def parseTimeFromText (text : Str) : Option Str := parseTimeGo timePatterns text

/-! ### "busy" rejection (`isBusyRejection`, routes.ts lines 625-638) -/

/-- `/\bbusy\b/i.test`: scans for a case-insensitive occurrence of `busy`
preceded by start-of-string or a non-word character and followed by
end-of-string or a non-word character. The Bool argument records whether the
previous character was a word boundary. -/
def busyWordScan : Bool → Str → Bool
  | _, [] => false
  | bOK, c :: rest =>
    (bOK && isPreCI "busy".toList (c :: rest) &&
      (match (c :: rest).drop 4 with
       | [] => true
       | d :: _ => !isWordCh d)) ||
    busyWordScan (!isWordCh c) rest

/-- `/\bbusy\b/i.test(text)`. -/
def hasRawBusy (text : Str) : Bool := busyWordScan true text

/-- The auxiliary/negator alternatives of the source's
`negatedBusyPattern`, in regex alternation order. -/
def negAlts : List Str :=
  ["won't".toList, "will not".toList, "shouldn't".toList, "should not".toList,
   "can't".toList, "cannot".toList, "couldn't".toList, "could not".toList,
   "wouldn't".toList, "would not".toList, "might not".toList,
   "isn't going to".toList, "not going to".toList, "am not".toList,
   "are not".toList, "is not".toList, "not".toList]

/-- Continuation `\s+(?:be\s+)?busy` of the negated-busy regex: at least one
whitespace character (greedy run; the following tokens start with a
non-whitespace character, so the maximal run is the only viable one), then
optionally `be` followed by more whitespace, then the literal `busy`. -/
def busyCont (r : Str) : Bool :=
  !(r.takeWhile isWs).isEmpty &&
  (let r1 := r.dropWhile isWs
   isPreCI "busy".toList r1 ||
   (isPreCI "be".toList r1 &&
    (let r2 := r1.drop 2
     !(r2.takeWhile isWs).isEmpty && isPreCI "busy".toList (r2.dropWhile isWs))))

/-- `negatedBusyPattern.test`: the regex
`/(?:won't|will not|…|not)\s+(?:be\s+)?busy/i`. At each position every
alternative is tried with its full continuation (regex backtracking). -/
def negatedBusyTest (text : Str) : Bool :=
  scanForB
    (fun s => negAlts.any (fun alt => isPreCI alt s && busyCont (s.drop alt.length)))
    text

/-- `isBusyRejection` (routes.ts lines 625-638). -/
def isBusyRejection (text : Str) : Bool :=
  if !hasRawBusy text then false
  else if negatedBusyTest text then false
  else true

/-! ### Rejection patterns and acceptance words
(`extractCollectedData`, routes.ts lines 341-376)

These regexes are tested against `userResponse = text.toLowerCase().trim()`,
but are compiled case-insensitively as in the source. -/

/-- `/^no$|^no[,.]|^no\s+that|^no\s+I|^no\s+it/i`: helper for the
`^no\s+word` alternatives. -/
def noWsThen (w : Str) (u : Str) : Bool :=
  isPreCI "no".toList u &&
  (let r := u.drop 2
   !(r.takeWhile isWs).isEmpty && isPreCI w (r.dropWhile isWs))

/-- Rejection pattern 1: `/^no$|^no[,.]|^no\s+that|^no\s+I|^no\s+it/i`. -/
def rej1Test (u : Str) : Bool :=
  (lowerStr u == "no".toList) ||
  (isPreCI "no".toList u &&
    (match u.drop 2 with
     | c :: _ => c == ',' || c == '.'
     | [] => false)) ||
  noWsThen "that".toList u || noWsThen "i".toList u || noWsThen "it".toList u

/-- Character class `[,.\s]` of rejection pattern 2. -/
def isSepCh (c : Char) : Bool := c == ',' || c == '.' || isWs c

/-- The body after `\bno` of rejection pattern 2:
`[,.\s]+(?:that|it|this)\s+(?:doesn't|won't|can't|isn't|doesn't|not)`. The
alternatives of each group match pairwise-disjoint texts, so first-fit
matching coincides with regex backtracking. -/
def rej2Body (rest : Str) : Bool :=
  !(rest.takeWhile isSepCh).isEmpty &&
  (let r2 := rest.dropWhile isSepCh
   match firstLitCI ["that".toList, "it".toList, "this".toList] r2 with
   | some (_, r3) =>
     !(r3.takeWhile isWs).isEmpty &&
     (["doesn't".toList, "won't".toList, "can't".toList, "isn't".toList,
       "not".toList].any (fun w => isPreCI w (r3.dropWhile isWs)))
   | none => false)

/-- Scanner for rejection pattern 2,
`/\bno[,.\s]+(?:that|it|this)\s+(?:doesn't|won't|can't|isn't|doesn't|not)/i`;
the Bool argument tracks the `\b` condition. -/
def rej2Scan : Bool → Str → Bool
  | _, [] => false
  | bOK, c :: rest =>
    (bOK && isPreCI "no".toList (c :: rest) && rej2Body ((c :: rest).drop 2)) ||
    rej2Scan (!isWordCh c) rest

/-- Rejection pattern 2 test. -/
def rej2Test (u : Str) : Bool := rej2Scan true u

/-- The plain-substring rejection patterns (`/doesn't work/i` …
`/out of the question/i`), in source order. -/
def rejSubstrings : List Str :=
  ["doesn't work".toList, "won't work".toList, "can't work".toList,
   "not available".toList, "not possible".toList, "not happening".toList,
   "unavailable".toList, "isn't possible".toList, "isn't available".toList,
   "isn't good".toList, "aren't available".toList, "inconvenient".toList,
   "doesn't suit".toList, "not suitable".toList, "not free".toList,
   "not open".toList, "conflict".toList, "bad time".toList,
   "too early".toList, "too late".toList, "not good".toList,
   "terrible".toList, "awful".toList, "impossible".toList,
   "out of the question".toList]

/-- The time group `(\d{1,2}(?::\d{2})?\s?(?:am|pm|o'clock))` of rejection
patterns 29/30: all backtracking choices (`(?::\d{2})?` taken/skipped, `\s?`
taken/skipped, each alternative) are explored; the list collects every
possible rest of the input after the group. -/
def timeGroupRests (s : Str) : List Str :=
  match takeDigits12 s with
  | none => []
  | some (_, _, r1) =>
    let colonOpts : List Str :=
      match r1 with
      | ':' :: a :: b :: r2 => if isDig a && isDig b then [r2, r1] else [r1]
      | _ => [r1]
    colonOpts.flatMap (fun r2 =>
      let wsOpts : List Str :=
        match r2 with
        | c :: r3 => if isWs c then [r3, r2] else [r2]
        | [] => [[]]
      wsOpts.flatMap (fun r3 =>
        match firstLitCI ["am".toList, "pm".toList, "o'clock".toList] r3 with
        | some (_, r4) => [r4]
        | none => []))

/-- Continuation `\s+(?:doesn't|won't|can't|isn't|not)` of rejection
pattern 29. -/
def rej29Tail (r : Str) : Bool :=
  !(r.takeWhile isWs).isEmpty &&
  (["doesn't".toList, "won't".toList, "can't".toList, "isn't".toList,
    "not".toList].any (fun w => isPreCI w (r.dropWhile isWs)))

/-- `/(\d{1,2}(?::\d{2})?\s?(?:am|pm|o'clock))\s+(?:doesn't|won't|can't|isn't|not)/i`. -/
def rej29Test (u : Str) : Bool :=
  scanForB (fun s => (timeGroupRests s).any rej29Tail) u

/-- `\s+(?:bad|terrible|awful|impossible)` tail of rejection pattern 30. -/
def adjAfterWs (r : Str) : Bool :=
  !(r.takeWhile isWs).isEmpty &&
  (["bad".toList, "terrible".toList, "awful".toList, "impossible".toList].any
    (fun w => isPreCI w (r.dropWhile isWs)))

/-- Continuation `\s+(?:is|would\s+be)\s+(?:bad|terrible|awful|impossible)`
of rejection pattern 30. -/
def rej30Tail (r : Str) : Bool :=
  !(r.takeWhile isWs).isEmpty &&
  (let r1 := r.dropWhile isWs
   (isPreCI "is".toList r1 && adjAfterWs (r1.drop 2)) ||
   (isPreCI "would".toList r1 &&
    (let r2 := r1.drop 5
     !(r2.takeWhile isWs).isEmpty &&
     (let r3 := r2.dropWhile isWs
      isPreCI "be".toList r3 && adjAfterWs (r3.drop 2)))))

/-- `/(\d{1,2}(?::\d{2})?\s?(?:am|pm|o'clock))\s+(?:is|would\s+be)\s+(?:bad|terrible|awful|impossible)/i`. -/
def rej30Test (u : Str) : Bool :=
  scanForB (fun s => (timeGroupRests s).any rej30Tail) u

/-- `rejectionPatterns.some(pattern => pattern.test(userResponse))`
(routes.ts lines 341-371, 375). -/
def rejectionPatternsTest (u : Str) : Bool :=
  rej1Test u || rej2Test u ||
  rejSubstrings.any (fun p => containsSub p (lowerStr u)) ||
  rej29Test u || rej30Test u

/-- `hasRejection` (routes.ts line 375). -/
def hasRejectionIn (u : Str) : Bool := rejectionPatternsTest u || isBusyRejection u

/-- The closed acceptance word list (routes.ts line 373). -/
def acceptanceWords : List Str :=
  ["yes".toList, "that works".toList, "sounds good".toList, "perfect".toList,
   "great".toList, "sure".toList, "works for me".toList, "let's do it".toList,
   "good".toList, "fine".toList, "okay".toList, "ok".toList,
   "that time is fine".toList, "excellent".toList, "wonderful".toList]

/-- `hasAcceptance` (routes.ts line 376):
`acceptanceWords.some(word => userResponse.includes(word))`. -/
def hasAcceptanceIn (u : Str) : Bool :=
  acceptanceWords.any (fun w => containsSub w u)

/-! ### Alternative-time patterns (routes.ts lines 388-403) -/

/-- The capture group
`(\d{1,2}(?::\d{2})?\s?(?:am|pm|o'clock|in the morning|in the afternoon|in the evening))`
matched at the current position, returning the captured text. Backtracking
choices are tried in regex preference order (2 digits before 1, colon part
taken before skipped, whitespace taken before skipped, alternatives in
order); the first complete combination wins, as in a backtracking engine. -/
def altTimeGroupAt (s : Str) : Option Str :=
  match takeDigits12 s with
  | none => none
  | some (_, ds, r1) =>
    let colonOpts : List (Str × Str) :=
      match r1 with
      | ':' :: a :: b :: r2 =>
        if isDig a && isDig b then [([':', a, b], r2), ([], r1)] else [([], r1)]
      | _ => [([], r1)]
    colonOpts.findSome? (fun cp =>
      let wsOpts : List (Str × Str) :=
        match cp.2 with
        | c :: r3 => if isWs c then [([c], r3), ([], cp.2)] else [([], cp.2)]
        | [] => [([], [])]
      wsOpts.findSome? (fun wp =>
        match firstLitCI
            ["am".toList, "pm".toList, "o'clock".toList, "in the morning".toList,
             "in the afternoon".toList, "in the evening".toList] wp.2 with
        | some (m, _) => some (ds ++ cp.1 ++ wp.1 ++ m)
        | none => none))

/-- One alternative pattern `/word\s+.*?(time-group)/i`: scans for the
leading word (leftmost), requires at least one whitespace character after
it, then — because `.*?` is lazy and the group cannot start inside the
whitespace run — captures the group at the earliest position after the
word where it matches. Returns `match[1]`. -/
def altPatternMatch (word : Str) (text : Str) : Option Str :=
  scanFor
    (fun s =>
      if isPreCI word s then
        let r := s.drop word.length
        if !(r.takeWhile isWs).isEmpty then
          scanFor altTimeGroupAt r
        else none
      else none)
    text

/-- The five alternative-time lead words, in source order. -/
def altWords : List Str :=
  ["but".toList, "maybe".toList, "how about".toList, "instead".toList,
   "prefer".toList]

/-- The `for (const pattern of alternativePatterns)` loop with its `break`:
the captured group of the first pattern that matches is fed to
`parseTimeFromText`; later patterns are not tried even if that parse
returns null (routes.ts lines 396-403). -/
def alternativeTimeOf (text : Str) : Option Str :=
  match altWords.findSome? (fun w => (altPatternMatch w text).map (fun g => (w, g))) with
  | some (_, g) => parseTimeFromText g
  | none => none

/-! ### Voice email reconstructor
(`parseEmailFromVoiceText` / `isValidEmail`, routes.ts lines 641-793) -/

/-- Regex class `[a-zA-Z0-9._%+-]` (email local part). -/
def isACh (c : Char) : Bool :=
  isAlphaCh c || isDig c || c == '.' || c == '_' || c == '%' || c == '+' || c == '-'

/-- Regex class `[a-zA-Z0-9.-]` (email domain). -/
def isBCh (c : Char) : Bool := isAlphaCh c || isDig c || c == '.' || c == '-'

/-- Cleanup class `[a-z0-9._-]` of the username filter (case-sensitive, as
in the source; the input is already lower-cased). -/
def isUserCh (c : Char) : Bool :=
  isLowerCh c || isDig c || c == '.' || c == '_' || c == '-'

/-- Cleanup class `[a-z0-9.-]` of the domain filter. -/
def isDomCh (c : Char) : Bool := isLowerCh c || isDig c || c == '.' || c == '-'

/-- Domain-part matcher for the direct-email regex
`[a-zA-Z0-9.-]+\.[a-zA-Z]{2,}`: given the maximal `[a-zA-Z0-9.-]` run after
the `@`, a backtracking engine prefers the largest `+` expansion, i.e. the
rightmost `.` followed by at least two letters; `{2,}` then greedily takes
the maximal letter run. `pre` accumulates the reversed characters already
passed. Returns the matched domain text. -/
def domSplitAux (pre : Str) : Str → Option Str
  | [] => none
  | c :: rest =>
    match domSplitAux (c :: pre) rest with
    | some r => some r
    | none =>
      if c == '.' && !pre.isEmpty then
        let letters := rest.takeWhile isAlphaCh
        if 2 ≤ letters.length then some (pre.reverse ++ '.' :: letters)
        else none
      else none

/-- Domain part of the direct-email regex applied to a maximal
`[a-zA-Z0-9.-]` run. -/
def domSplit (b : Str) : Option Str := domSplitAux [] b

/-- Positional matcher for the direct-email regex
`/([a-zA-Z0-9._%+-]+@[a-zA-Z0-9.-]+\.[a-zA-Z]{2,})/`: the local part is the
maximal `[a-zA-Z0-9._%+-]` run (no backtracking is possible because `@` is
outside the class), then `@`, then the domain as in `domSplit`. -/
def matchEmailAt (s : Str) : Option Str :=
  let l := s.takeWhile isACh
  if l.isEmpty then none
  else
    match s.drop l.length with
    | '@' :: rest =>
      match domSplit (rest.takeWhile isBCh) with
      | some d => some (l ++ '@' :: d)
      | none => none
    | _ => none

/-- Leftmost match of the direct-email regex (source step 1). -/
def directEmailMatch (t : Str) : Option Str := scanFor matchEmailAt t

/-- Matches `word\s+` at the current position (the word case-insensitively,
then a maximal nonempty whitespace run), returning the rest. -/
def wordThenWs (w : Str) (s : Str) : Option Str :=
  if isPreCI w s then
    let r := s.drop w.length
    if (r.takeWhile isWs).isEmpty then none else some (r.dropWhile isWs)
  else none

/-- First alternative of the prefix-strip regex:
`my\s+email\s+(address\s+)?is\s+`. The optional `address\s+` group is
decided greedily; no backtracking is needed because `address` and `is`
start with different letters. -/
def preMy (s : Str) : Option Str :=
  (wordThenWs "my".toList s).bind (fun s1 =>
    (wordThenWs "email".toList s1).bind (fun s2 =>
      match wordThenWs "address".toList s2 with
      | some s3 => wordThenWs "is".toList s3
      | none => wordThenWs "is".toList s2))

/-- Second alternative: `email\s+is\s+`. -/
def preEmailIs (s : Str) : Option Str :=
  (wordThenWs "email".toList s).bind (fun s1 => wordThenWs "is".toList s1)

/-- Third alternative: `it'?s\s+` (apostrophe tried first, greedily). -/
def preIts (s : Str) : Option Str :=
  if isPreCI "it's".toList s then
    (let r := s.drop 4
     if (r.takeWhile isWs).isEmpty then none else some (r.dropWhile isWs))
  else if isPreCI "its".toList s then
    (let r := s.drop 3
     if (r.takeWhile isWs).isEmpty then none else some (r.dropWhile isWs))
  else none

/-- Fourth alternative: `the\s+email\s+is\s+`. -/
def preThe (s : Str) : Option Str :=
  (wordThenWs "the".toList s).bind (fun s1 =>
    (wordThenWs "email".toList s1).bind (fun s2 => wordThenWs "is".toList s2))

/-- Source step 2: `normalized.replace(/^(my\s+email\s+(address\s+)?is\s+|email\s+is\s+|it'?s\s+|the\s+email\s+is\s+)/i, '')`
— anchored, alternatives in order, at most one replacement. -/
def stripPre (s : Str) : Str :=
  match preMy s with
  | some r => r
  | none =>
    match preEmailIs s with
    | some r => r
    | none =>
      match preIts s with
      | some r => r
      | none =>
        match preThe s with
        | some r => r
        | none => s

/-- Matches `\s+w₁\s+w₂…\s+wₙ\s+` at the current position (each `\s+` is a
maximal nonempty whitespace run — the following word starts with a
non-whitespace character, so no backtracking arises), returning the total
matched length. -/
def spacedWordsMatchAt : List Str → Str → Option Nat
  | [], s =>
    let n := (s.takeWhile isWs).length
    if n == 0 then none else some n
  | w :: rest, s =>
    let n := (s.takeWhile isWs).length
    if n == 0 then none
    else
      let s1 := s.dropWhile isWs
      if isPreCI w s1 then
        (spacedWordsMatchAt rest (s1.drop w.length)).map (fun k => n + w.length + k)
      else none

/-- Matches `\s+(alt₁|alt₂|…)\s+` at the current position: every
alternative is tried with the trailing-whitespace continuation (regex
backtracking across the alternation), first complete one wins. -/
def spacedAltMatchAt (alts : List Str) (s : Str) : Option Nat :=
  let n := (s.takeWhile isWs).length
  if n == 0 then none
  else
    let s1 := s.dropWhile isWs
    alts.findSome? (fun lit =>
      if isPreCI lit s1 then
        let r := s1.drop lit.length
        let m := (r.takeWhile isWs).length
        if m == 0 then none else some (n + lit.length + m)
      else none)

/-- `String.prototype.replace` with a `g`-flagged regex: scans left to
right, replacing non-overlapping matches and resuming after each match.
Fuel is the input length (every match consumes at least one character). -/
def replaceAllAux (matchAt : Str → Option Nat) (repl : Str) : Nat → Str → Str
  | 0, s => s
  | _ + 1, [] => []
  | f + 1, c :: rest =>
    match matchAt (c :: rest) with
    | some n => repl ++ replaceAllAux matchAt repl f ((c :: rest).drop (max n 1))
    | none => c :: replaceAllAux matchAt repl f rest

/-- Global replace driver. -/
def replaceAll (matchAt : Str → Option Nat) (repl : Str) (s : Str) : Str :=
  replaceAllAux matchAt repl s.length s

/-- The provider alias table (source `domainMap`). Keys containing spaces
are kept for fidelity although whitespace is removed before lookup. -/
def domainMapL : List (Str × Str) :=
  [("gmail".toList, "gmail.com".toList),
   ("geemail".toList, "gmail.com".toList),
   ("g mail".toList, "gmail.com".toList),
   ("yahoo".toList, "yahoo.com".toList),
   ("ya hoo".toList, "yahoo.com".toList),
   ("outlook".toList, "outlook.com".toList),
   ("hotmail".toList, "hotmail.com".toList),
   ("hot mail".toList, "hotmail.com".toList),
   ("icloud".toList, "icloud.com".toList),
   ("i cloud".toList, "icloud.com".toList),
   ("protonmail".toList, "protonmail.com".toList),
   ("proton mail".toList, "protonmail.com".toList)]

/-- `knownDomains` (source step 7). -/
def knownDomainsL : List Str :=
  ["gmail".toList, "yahoo".toList, "outlook".toList, "hotmail".toList,
   "icloud".toList]

/-- Exact-key lookup in the alias table (JS object property access). -/
def lookupDomain (k : Str) : Option Str :=
  (domainMapL.find? (fun p => p.1 == k)).map (fun p => p.2)

/-- The anchored shape test of `isValidEmail`:
`/^[a-zA-Z0-9._%+-]+@[a-zA-Z0-9.-]+\.[a-zA-Z]{2,}$/`. A full match exists
iff the string has exactly one `@` (no class contains `@`), a nonempty
all-`[a-zA-Z0-9._%+-]` local part, and a domain whose characters all lie in
`[a-zA-Z0-9.-]` and whose final `.`-separated segment consists of at least
two letters with a nonempty prefix before that dot. -/
def emailRegexTest (e : Str) : Bool :=
  match splitOnChar '@' e with
  | [l, d] =>
    !l.isEmpty && l.all isACh && d.all isBCh &&
    (let revSuf := d.reverse.takeWhile (fun c => !(c == '.'))
     decide (revSuf.length + 1 ≤ d.length) &&
     decide (2 ≤ revSuf.length) && revSuf.all isAlphaCh &&
     decide (revSuf.length + 2 ≤ d.length))
  | _ => false

/-- `isValidEmail` (routes.ts lines 767-793). -/
def isValidEmail (email : Str) : Bool :=
  if !emailRegexTest email then false
  else
    match splitOnChar '@' email with
    | [localPart, domainPart] =>
      if localPart.isEmpty then false
      else if !(domainPart.contains '.') then false
      else
        match (splitOnChar '.' domainPart).getLast? with
        | some tld => !tld.isEmpty && decide (2 ≤ tld.length)
        | none => false
    | _ => false

/-- Steps 2-3 of `parseEmailFromVoiceText`: the prefix strip followed by
the six spoken-delimiter replacements, applied to the lower-cased trimmed
utterance. -/
def voiceSubstituted (text : Str) : Str :=
  let n2 := stripPre (jsTrim (lowerStr text))
  let e1 := replaceAll (spacedWordsMatchAt ["at".toList, "the".toList, "rate".toList]) " @ ".toList n2
  let e2 := replaceAll (spacedWordsMatchAt ["at".toList]) " @ ".toList e1
  let e3 := replaceAll (spacedWordsMatchAt ["dot".toList]) ['.'] e2
  let e4 := replaceAll (spacedWordsMatchAt ["period".toList]) ['.'] e3
  let e5 := replaceAll (spacedWordsMatchAt ["underscore".toList]) ['_'] e4
  replaceAll (spacedAltMatchAt ["dash".toList, "hyphen".toList]) ['-'] e5

/-- `parseEmailFromVoiceText` (routes.ts lines 641-764). -/
def parseEmailFromVoiceText (text : Str) : Option Str :=
  let normalized := jsTrim (lowerStr text)
  match directEmailMatch normalized with
  | some e => some (lowerStr e)
  | none =>
    let e6 := voiceSubstituted text
    if !(e6.contains '@') then none
    else
      match splitOnChar '@' e6 with
      | [usernamePart, domainPart] =>
        let u1 := jsTrim usernamePart
        let u2 := replaceAll
          (spacedAltMatchAt
            ["the".toList, "a".toList, "an".toList, "and".toList, "or".toList,
             "to".toList, "of".toList, "in".toList, "on".toList, "for".toList])
          [] u1
        let u3 := u2.filter (fun c => !isWs c)
        let username := u3.filter isUserCh
        let d1 := jsTrim domainPart
        let d2 := d1.filter (fun c => !isWs c)
        let d3 :=
          match lookupDomain d2 with
          | some v => v
          | none => d2
        let d4 :=
          if !(d3.contains '.') && knownDomainsL.any (fun k => k.isPrefixOf d3) then
            d3 ++ ".com".toList
          else d3
        let domain := d4.filter isDomCh
        if username.isEmpty then none
        else if !(domain.contains '.') then none
        else
          let email := username ++ '@' :: domain
          if isValidEmail email then some email else none
      | _ => none

/-! ### Session data model (routes.ts lines 24-25, 217-243) -/

/-- Message roles of the conversation history. -/
inductive Role
  | system
  | user
  | assistant
deriving DecidableEq, Repr

/-- One role-tagged turn of the conversation history. -/
structure Message where
  role : Role
  content : Str
deriving DecidableEq, Repr

/-- `session.collectedData`. -/
structure CollectedData where
  name : Option Str := none
  email : Option Str := none
  meetingPreference : Option Str := none
  userPreferredTime : Option Str := none
  rejectedSlots : List Str := []
  lastSuggestedSlot : Option Str := none
deriving DecidableEq, Repr

/-- A voice-agent session (the `lastUpdated` timestamp is informational
only and not modelled). -/
structure Session where
  sessionId : Str
  messages : List Message
  collectedData : CollectedData
deriving DecidableEq, Repr

/-- JS truthiness of a `string | undefined` field: `undefined` and the
empty string are falsy. -/
def truthy : Option Str → Bool
  | none => false
  | some s => !s.isEmpty

/-- The fixed system instruction (first message of every session). Only its
identity matters to the verified properties; the prose is the source's
`VOICE_AGENT_SYSTEM_PROMPT` (routes.ts lines 28-56), elided here. -/
def systemPromptMsg : Message := ⟨Role.system, "VOICE_AGENT_SYSTEM_PROMPT".toList⟩

/-- The session created by `getOrCreateSession` on a cache miss
(routes.ts lines 217-235). -/
def initialSession (sessionId : Str) : Session :=
  { sessionId := sessionId
    messages := [systemPromptMsg]
    collectedData := {} }

/-- `addUserMessage` (routes.ts lines 238-243): appends the utterance as a
`user` message when `final` and the trimmed text is nonempty. -/
def addUserMessage (s : Session) (text : Str) (final : Bool) : Session :=
  if final && !(jsTrim text).isEmpty then
    { s with messages := s.messages ++ [⟨Role.user, text⟩] }
  else s

/-! ### Slot-suggestion context injection
(`addTimeSlotContext`, routes.ts lines 246-274)

The awaited `storage.getAvailableTimeSlots(tomorrow)` result and the
`Math.random()` slot choice are passed in as parameters (`availableSlots`
and `pick`; the source's `Math.floor(Math.random() * len)` is an arbitrary
index below `len`, modelled as `pick % len`). The function returns the
updated `collectedData` and the system context message injected into
`messagesWithContext` (which is not part of the session history). -/

/-- The three possible injected context messages, tagged by branch. -/
inductive SlotContext
  | noSlots
  | listRemaining (slots : List Str)
  | suggest (slot : Str)
deriving DecidableEq, Repr

/-- `addTimeSlotContext` (routes.ts lines 246-274). -/
def addTimeSlotContext (cd : CollectedData) (availableSlots : List Str)
    (pick : Nat) : CollectedData × Option SlotContext :=
  if truthy cd.name && truthy cd.email && !truthy cd.meetingPreference &&
      !truthy cd.userPreferredTime then
    let rejected := cd.rejectedSlots
    let nonRejected := availableSlots.filter (fun s => !rejected.contains s)
    if nonRejected.isEmpty then
      (cd, some SlotContext.noSlots)
    else if decide (2 ≤ rejected.length) then
      (cd, some (SlotContext.listRemaining nonRejected))
    else
      let randomSlot := nonRejected.getD (pick % nonRejected.length) []
      ({ cd with lastSuggestedSlot := some randomSlot },
       some (SlotContext.suggest randomSlot))
  else (cd, none)

/-! ### Structured-output parsing (`parseLLMResponse`, routes.ts 277-314) -/

/-- The provider-facing reply structure produced per turn. -/
structure ParsedResponse where
  replyText : Str
  askFor : Option Str
  readyToBook : Bool
deriving DecidableEq, Repr

/-- Outcome of `JSON.parse` on the raw model output, restricted to the
fields the source reads: `none` models a parse exception (or a non-object
value, whose property reads behave like missing fields and are modelled by
`some` with `replyText := none`); `readyToBook := none` models an absent or
non-boolean field. Embedding a full JSON parser is out of scope, so the
parse outcome is a parameter of the pipeline. -/
structure JsonReply where
  replyText : Option Str := none
  askFor : Option Str := none
  readyToBook : Option Bool := none
deriving DecidableEq, Repr

/-- The apology used by the parse-failure fallback (routes.ts line 301). -/
def apologyText : Str :=
  "I'm having trouble processing that. Could you please repeat?".toList

/-- JS `'{'` (written via its code point to keep braces out of string
literals). -/
def braceChar : Char := Char.ofNat 123

/-- The fallback response built when JSON parsing (or the `replyText`
validation throw) fails (routes.ts lines 299-306). -/
def fallbackResponse (raw : Str) : ParsedResponse :=
  { replyText := if raw.contains braceChar then apologyText else raw
    askFor := none
    readyToBook := false }

/-- `parseLLMResponse` (routes.ts lines 277-314): `parsed` is the
`JSON.parse` outcome for `raw`. A missing or falsy `replyText` raises
inside the `try`, landing in the same fallback as a parse exception;
`readyToBook` defaults to `false` when absent or non-boolean. -/
def parseLLMResponse (parsed : Option JsonReply) (raw : Str) : ParsedResponse :=
  match parsed with
  | none => fallbackResponse raw
  | some j =>
    match j.replyText with
    | none => fallbackResponse raw
    | some rt =>
      if rt.isEmpty then fallbackResponse raw
      else
        { replyText := rt
          askFor := j.askFor
          readyToBook := j.readyToBook.getD false }

/-! ### Field extraction (`extractCollectedData`, routes.ts lines 317-438) -/

/-- The name-capture regex `/(?:my name is |i'm |i am |call me )([a-zA-Z\s]+)/i`:
leftmost occurrence of one of the four literal prefixes (each ending in a
literal space) followed by a nonempty maximal `[a-zA-Z\s]` run, which is
`match[1]`. -/
def nameMatch (text : Str) : Option Str :=
  scanFor
    (fun s =>
      (firstLitCI
          ["my name is ".toList, "i'm ".toList, "i am ".toList,
           "call me ".toList] s).bind
        (fun pr =>
          let g := pr.2.takeWhile (fun c => isAlphaCh c || isWs c)
          if g.isEmpty then none else some g))
    text

/-- The negative-sentiment words scanned in the window around a bare
parsed time (routes.ts line 416); the check is case-sensitive. -/
def negativeWords : List Str :=
  ["not".toList, "doesn't".toList, "won't".toList, "bad".toList,
   "terrible".toList, "awful".toList]

/-- The window computation of routes.ts line 415:
`text.substring(Math.max(0, i - 20), i + parsedTime.length + 20)` where
`i = text.indexOf(parsedTime.toLowerCase())` (`-1` when the lower-cased
canonical time does not occur literally in the raw utterance). -/
def timeContextOf (text pt : Str) : Str :=
  let i := jsIndexOf text (lowerStr pt)
  jsSubstring text (max 0 (i - 20)) (i + (pt.length : Int) + 20)

/-- `negativeContext` (routes.ts line 416). -/
def negativeContextFor (text pt : Str) : Bool :=
  negativeWords.any (fun w => containsSub w (timeContextOf text pt))

/-- `extractCollectedData` (routes.ts lines 317-438) as a pure transformer
of `collectedData`; `pr` is the parsed model reply of the current turn. -/
def extractCollectedData (cd : CollectedData) (text : Str)
    (pr : ParsedResponse) : CollectedData :=
  if (jsTrim text).isEmpty then cd
  else
    let cd1 :=
      if pr.askFor == some "email".toList && !truthy cd.name then
        { cd with
          name := some (match nameMatch text with
            | some g => jsTrim g
            | none => jsTrim text) }
      else if (pr.askFor == some "meeting_preference".toList ||
               pr.askFor == some "email".toList) && !truthy cd.email then
        match parseEmailFromVoiceText text with
        | some e => if !e.isEmpty && isValidEmail e then { cd with email := some e } else cd
        | none => cd
      else if truthy cd.email && !truthy cd.meetingPreference then
        let userResponse := jsTrim (lowerStr text)
        let hasRejection := hasRejectionIn userResponse
        let hasAcceptance := hasAcceptanceIn userResponse
        let parsedTime := parseTimeFromText text
        if hasRejection then
          let cdA :=
            match cd.lastSuggestedSlot with
            | some lss =>
              if !lss.isEmpty && !cd.rejectedSlots.contains lss then
                { cd with rejectedSlots := cd.rejectedSlots ++ [lss] }
              else cd
            | none => cd
          let cdB := { cdA with lastSuggestedSlot := none }
          match alternativeTimeOf text with
          | some t => { cdB with meetingPreference := some t }
          | none => cdB
        else if hasAcceptance then
          if truthy cd.lastSuggestedSlot then
            { cd with meetingPreference := cd.lastSuggestedSlot }
          else cd
        else
          match parsedTime with
          | some pt =>
            if negativeContextFor text pt then cd
            else { cd with meetingPreference := some pt }
          | none => cd
      else if (pr.askFor == some "user_preferred_time".toList ||
               pr.askFor == some "confirmation".toList) &&
              !truthy cd.meetingPreference then
        match parseTimeFromText text with
        | some t => { cd with userPreferredTime := some t, meetingPreference := some t }
        | none => cd
      else cd
    if pr.askFor == some "confirmation".toList && truthy cd1.lastSuggestedSlot &&
        !truthy cd1.meetingPreference then
      { cd1 with meetingPreference := cd1.lastSuggestedSlot }
    else cd1

/-! ### LLM gateway (`createChatCompletion`, routes.ts lines 479-521) -/

/-- The two LLM providers. -/
inductive Provider
  | groq
  | openai
deriving DecidableEq, Repr

/-- The shared sampling parameters (`baseParams`): temperature 0.7
(represented in tenths), `max_tokens: 200`, forced JSON output mode. -/
structure ChatParams where
  temperatureTenths : Nat
  maxTokens : Nat
  jsonMode : Bool
deriving DecidableEq, Repr

/-- `baseParams` (routes.ts lines 480-485). -/
def baseParams : ChatParams := ⟨7, 200, true⟩

/-- Outcome of one provider call: an exception, or a completion whose
`content` may be null/undefined (`none`). -/
abbrev ProviderResult := Except Unit (Option Str)

/-- `createChatCompletion` (routes.ts lines 479-521): tries the primary
(Groq) provider; on any exception makes exactly one fallback call to the
secondary (OpenAI) provider with the same `baseParams`; when both throw,
raises `"Both LLM providers failed"`. Returns the ordered list of provider
attempts (with the parameters each was called with) alongside the result. -/
def createChatCompletion (primary secondary : ProviderResult) :
    List (Provider × ChatParams) × Except Str (Option Str × Provider) :=
  match primary with
  | .ok content => ([(Provider.groq, baseParams)], .ok (content, Provider.groq))
  | .error _ =>
    match secondary with
    | .ok content =>
      ([(Provider.groq, baseParams), (Provider.openai, baseParams)],
       .ok (content, Provider.openai))
    | .error _ =>
      ([(Provider.groq, baseParams), (Provider.openai, baseParams)],
       .error "Both LLM providers failed".toList)

/-! ### Turn pipeline (`processVoiceAgentRequest`, routes.ts lines 527-578)

The collaborator behaviours of one turn — the two provider outcomes, the
available slots, the random slot pick, and the `JSON.parse` outcome
function — are bundled as the turn input. TTS synthesis only affects the
returned `audioUrl` and no verified property, so it is not modelled. -/

/-- Everything one turn consumes besides the session. -/
structure TurnInput where
  text : Str
  final : Bool
  availableSlots : List Str
  pick : Nat
  primary : ProviderResult
  secondary : ProviderResult
  jsonParse : Str → Option JsonReply

/-- The turn-level response (sans `audioUrl`). -/
structure TurnResponse where
  replyText : Str
  askFor : Option Str
  readyToBook : Bool
  collectedData : CollectedData
deriving Repr

/-- `processVoiceAgentRequest` (routes.ts lines 527-578): returns the
session as left in the store together with the turn outcome — a response,
or the error surfaced to the transport (HTTP 5xx / socket error frame).
`messagesWithContext` is a copy of the history plus the injected context;
only the raw assistant output is appended to the session, and only after a
successful completion. -/
def processTurn (s : Session) (inp : TurnInput) :
    Session × Except Str TurnResponse :=
  let s1 := addUserMessage s inp.text inp.final
  let ctxStep := addTimeSlotContext s1.collectedData inp.availableSlots inp.pick
  let s2 := { s1 with collectedData := ctxStep.1 }
  match (createChatCompletion inp.primary inp.secondary).2 with
  | .error e => (s2, .error e)
  | .ok (content?, _provider) =>
    match content? with
    | none => (s2, .error "No response from LLM provider".toList)
    | some content =>
      if content.isEmpty then (s2, .error "No response from LLM provider".toList)
      else
        let pr := parseLLMResponse (inp.jsonParse content) content
        let cd3 := extractCollectedData ctxStep.1 inp.text pr
        let s3 := { s2 with
          collectedData := cd3
          messages := s2.messages ++ [⟨Role.assistant, content⟩] }
        (s3, .ok { replyText := pr.replyText, askFor := pr.askFor,
                   readyToBook := pr.readyToBook, collectedData := cd3 })

/-- Folding a sequence of turns over a session (each turn's collaborator
behaviour supplied in the list). -/
def foldTurns (s : Session) (inputs : List TurnInput) : Session :=
  inputs.foldl (fun st i => (processTurn st i).1) s

/-! ### Slot calendar (`MemStorage`, routes.ts lines 1247-1286)

Timestamps are epoch milliseconds (`Nat`); `setHours(0,0,0,0)` /
`setHours(23,59,59,999)` give the enclosing day, and
`toLocaleTimeString('en-US', {hour:'2-digit', minute:'2-digit', hour12:false})`
renders `HH:MM` from the hour and minute components. -/

/-- Milliseconds per day. -/
def msPerDay : Nat := 86400000

/-- A persisted booking, reduced to the field the calendar reads. -/
structure Booking where
  meetingTime : Nat
deriving DecidableEq, Repr

/-- Midnight of the day containing `t`. -/
def startOfDay (t : Nat) : Nat := t / msPerDay * msPerDay

/-- Hour-of-day component. -/
def hourOf (t : Nat) : Nat := t % msPerDay / 3600000

/-- Minute-of-hour component. -/
def minuteOf (t : Nat) : Nat := t % 3600000 / 60000

/-- `String(n).padStart(2, '0')` for the two-digit hour/minute components
(all values that occur are below 100). -/
def pad2 (n : Nat) : Str := [Nat.digitChar (n / 10), Nat.digitChar (n % 10)]

/-- The 24-hour `HH:MM` rendering of a timestamp. -/
def hhmm (t : Nat) : Str := pad2 (hourOf t) ++ ':' :: pad2 (minuteOf t)

/-- `toLocaleTimeString('en-US', {hour:'numeric', minute:'2-digit', hour12:true})`
for a given hour and minute. -/
def format12 (hour minute : Nat) : Str :=
  let h12 := if hour % 12 == 0 then 12 else hour % 12
  let ap := if hour < 24 && 12 ≤ hour then " PM".toList else " AM".toList
  hourStr h12 ++ ':' :: pad2 minute ++ ap

/-- `MemStorage.getBookingsByDate` (routes.ts lines 1247-1256): bookings
whose `meetingTime` lies between the start and end of the day of `date`. -/
def getBookingsByDate (bookings : List Booking) (date : Nat) : List Booking :=
  bookings.filter (fun b =>
    decide (startOfDay date ≤ b.meetingTime) &&
    decide (b.meetingTime ≤ startOfDay date + (msPerDay - 1)))

/-- The candidate half-hour slots, 9 AM to 6 PM exclusive, in generation
order of the source's nested loops. -/
def slotPairs : List (Nat × Nat) :=
  ((List.range 9).map (fun i => 9 + i)).flatMap (fun h => [(h, 0), (h, 30)])

/-- `MemStorage.getAvailableTimeSlots` (routes.ts lines 1258-1286). -/
def getAvailableTimeSlots (bookings : List Booking) (date : Nat) : List Str :=
  let bookedTimes := (getBookingsByDate bookings date).map (fun b => hhmm b.meetingTime)
  (slotPairs.filter (fun p => !bookedTimes.contains (pad2 p.1 ++ ':' :: pad2 p.2))).map
    (fun p => format12 p.1 p.2)

/-! ## General lemmas about the string model -/

theorem charOfNat_toNat {n : Nat} (h : n ≤ 122) : (Char.ofNat n).toNat = n := by
  have hv : Nat.isValidChar n := Or.inl (by omega)
  unfold Char.ofNat
  split
  · rfl
  · next hnv => exact absurd hv hnv

theorem toLower_toNat (c : Char) :
    (Char.toLower c).toNat =
      if 65 ≤ c.toNat ∧ c.toNat ≤ 90 then c.toNat + 32 else c.toNat := by
  unfold Char.toLower
  split
  · next h =>
    rw [if_pos ⟨h.1, h.2⟩]
    exact charOfNat_toNat (by omega)
  · next h => rw [if_neg h]

theorem char_eq_of_toNat_eq {a b : Char} (h : a.toNat = b.toNat) : a = b := by
  apply Char.le_antisymm
  · exact Nat.le_of_eq h
  · exact Nat.le_of_eq h.symm

/-- `toLower` fixes any character that is not an uppercase letter. -/
theorem toLower_fix {c : Char} (h : ¬(65 ≤ c.toNat ∧ c.toNat ≤ 90)) :
    c.toLower = c := by
  have ht := toLower_toNat c
  rw [if_neg h] at ht
  exact char_eq_of_toNat_eq ht

theorem isAlphaCh_toLower {c : Char} (h : isAlphaCh c = true) :
    isAlphaCh c.toLower = true := by
  by_cases hu : 65 ≤ c.toNat ∧ c.toNat ≤ 90
  · have ht := toLower_toNat c
    rw [if_pos hu] at ht
    simp only [isAlphaCh, Bool.or_eq_true, Bool.and_eq_true, decide_eq_true_eq]
    left; omega
  · rw [toLower_fix hu]; exact h

theorem isACh_toLower {c : Char} (h : isACh c = true) : isACh c.toLower = true := by
  by_cases hu : 65 ≤ c.toNat ∧ c.toNat ≤ 90
  · have ht := toLower_toNat c
    rw [if_pos hu] at ht
    simp only [isACh, isAlphaCh, Bool.or_eq_true, Bool.and_eq_true,
      decide_eq_true_eq]
    left; left; omega
  · rw [toLower_fix hu]; exact h

theorem isBCh_toLower {c : Char} (h : isBCh c = true) : isBCh c.toLower = true := by
  by_cases hu : 65 ≤ c.toNat ∧ c.toNat ≤ 90
  · have ht := toLower_toNat c
    rw [if_pos hu] at ht
    simp only [isBCh, isAlphaCh, Bool.or_eq_true, Bool.and_eq_true,
      decide_eq_true_eq]
    left; left; omega
  · rw [toLower_fix hu]; exact h

theorem toLower_at : Char.toLower '@' = '@' := by decide

theorem isWs_toNat {c : Char} (h : isWs c = true) : c.toNat ≤ 32 := by
  simp only [isWs, Bool.or_eq_true, beq_iff_eq] at h
  rcases h with ((((h | h) | h) | h) | h) | h <;> subst h <;> decide

/-- A whitespace character is fixed by `toLower` and is not a letter. -/
theorem isWs_toLower_not_alpha {c : Char} (h : isWs c = true) :
    isAlphaCh c.toLower = false := by
  have h1 := isWs_toNat h
  rw [toLower_fix (by omega)]
  apply Bool.eq_false_iff.mpr
  intro hc
  simp only [isAlphaCh, Bool.or_eq_true, Bool.and_eq_true, decide_eq_true_eq] at hc
  omega

theorem isDig_toNat {c : Char} (h : isDig c = true) :
    48 ≤ c.toNat ∧ c.toNat ≤ 57 := by
  simpa [isDig, Bool.and_eq_true, decide_eq_true_eq] using h

theorem isDig_toLower_self {c : Char} (h : isDig c = true) : c.toLower = c := by
  have h1 := isDig_toNat h
  have ht := toLower_toNat c
  apply char_eq_of_toNat_eq
  split at ht <;> omega

/-- `containsSub` with a one-character pattern is membership. -/
theorem containsSub_single {x : Char} {s : Str} :
    containsSub [x] s = true ↔ x ∈ s := by
  induction s with
  | nil => simp [containsSub]
  | cons c rest ih =>
    simp only [containsSub, Bool.or_eq_true, List.mem_cons, ih]
    constructor
    · rintro (h | h)
      · have : x = c := by
          cases hb : (x == c) with
          | true => exact eq_of_beq hb
          | false => simp [List.isPrefixOf, hb] at h
        left; exact this
      · right; exact h
    · rintro (h | h)
      · left; subst h; simp [List.isPrefixOf]
      · right; exact h

/-- `splitOnChar` never returns an empty list of parts. -/
theorem splitOnChar_ne_nil (c : Char) (s : Str) : splitOnChar c s ≠ [] := by
  induction s with
  | nil => simp [splitOnChar]
  | cons x rest ih =>
    simp only [splitOnChar]
    split
    · simp
    · split
      · simp
      · simp

/-- Splitting a string that does not contain the separator. -/
theorem splitOnChar_of_not_mem {c : Char} {s : Str} (h : c ∉ s) :
    splitOnChar c s = [s] := by
  induction s with
  | nil => rfl
  | cons x rest ih =>
    simp only [List.mem_cons, not_or] at h
    simp only [splitOnChar]
    rw [if_neg (by simp [beq_iff_eq]; exact fun hx => h.1 hx.symm), ih h.2]

/-- Splitting `l ++ c :: d` where neither part contains the separator. -/
theorem splitOnChar_append {c : Char} {l d : Str} (hl : c ∉ l) (hd : c ∉ d) :
    splitOnChar c (l ++ c :: d) = [l, d] := by
  induction l with
  | nil =>
    simp only [List.nil_append, splitOnChar, if_pos (beq_self_eq_true c),
      splitOnChar_of_not_mem hd]
  | cons x rest ih =>
    simp only [List.mem_cons, not_or] at hl
    simp only [List.cons_append, splitOnChar]
    rw [if_neg (by simp [beq_iff_eq]; exact fun hx => hl.1 hx.symm)]
    simp only [List.append_eq]
    rw [ih hl.2]

/-- `scanFor` succeeding on a nonempty suffix succeeds on the whole. -/
theorem scanFor_append_isSome {f : Str → Option α} {pre : Str} {c : Char}
    {suf : Str} (h : (f (c :: suf)).isSome) :
    (scanFor f (pre ++ c :: suf)).isSome := by
  induction pre with
  | nil =>
    simp only [List.nil_append, scanFor]
    cases hf : f (c :: suf) with
    | none => rw [hf] at h; simp at h
    | some v => simp [Option.orElse, hf]
  | cons p ps ih =>
    simp only [List.cons_append, scanFor]
    cases hf : f (p :: (ps ++ c :: suf)) with
    | none => simpa [Option.orElse, hf] using ih
    | some v => simp [Option.orElse, hf]

/-- Every `scanFor` success is a positional success somewhere. -/
theorem scanFor_spec {f : Str → Option α} {s : Str} {r : α}
    (h : scanFor f s = some r) : ∃ s', f s' = some r := by
  induction s with
  | nil => simp [scanFor] at h
  | cons c rest ih =>
    simp only [scanFor] at h
    cases hf : f (c :: rest) with
    | none => rw [hf] at h; simp only [Option.orElse] at h; exact ih h
    | some v =>
      rw [hf] at h
      simp only [Option.orElse] at h
      exact ⟨c :: rest, hf ▸ h⟩

/-- `matchLitCI` decomposition: the consumed text prepends the rest and
lower-cases to the lower-cased literal. -/
theorem matchLitCI_spec : ∀ {l s : Str} {m r : Str},
    matchLitCI l s = some (m, r) → s = m ++ r ∧ lowerStr m = lowerStr l := by
  intro l
  induction l with
  | nil =>
    intro s m r h
    simp only [matchLitCI] at h
    cases h
    exact ⟨rfl, rfl⟩
  | cons p ps ih =>
    intro s m r h
    cases s with
    | nil => simp [matchLitCI] at h
    | cons c cs =>
      simp only [matchLitCI] at h
      split at h
      · next heq =>
        cases hrec : matchLitCI ps cs with
        | none => rw [hrec] at h; simp at h
        | some v =>
          rw [hrec] at h
          cases v with
          | mk m' r' =>
            simp only at h
            cases h
            obtain ⟨h1, h2⟩ := ih hrec
            refine ⟨by rw [h1]; rfl, ?_⟩
            simp only [lowerStr, List.map_cons]
            rw [show Char.toLower c = Char.toLower p from (eq_of_beq heq).symm]
            simpa [lowerStr] using h2
      · simp at h

/-- `matchLitCI` replay: a consumed text matches again with any tail. -/
theorem matchLitCI_replay : ∀ {l m : Str}, lowerStr m = lowerStr l →
    ∀ t, matchLitCI l (m ++ t) = some (m, t) := by
  intro l
  induction l with
  | nil =>
    intro m h t
    cases m with
    | nil => rfl
    | cons c cs => simp [lowerStr] at h
  | cons p ps ih =>
    intro m h t
    cases m with
    | nil => simp [lowerStr] at h
    | cons c cs =>
      simp only [lowerStr, List.map_cons, List.cons.injEq] at h
      simp only [List.cons_append, matchLitCI]
      rw [if_pos (by simp [beq_iff_eq, h.1])]
      simp only [List.append_eq]
      rw [ih (by simpa [lowerStr] using h.2) t]

/-- `firstLitCI` decomposition. -/
theorem firstLitCI_spec {lits : List Str} {s m r : Str}
    (h : firstLitCI lits s = some (m, r)) :
    s = m ++ r ∧ ∃ l ∈ lits, lowerStr m = lowerStr l := by
  induction lits with
  | nil => simp [firstLitCI] at h
  | cons l ls ih =>
    simp only [firstLitCI] at h
    cases hm : matchLitCI l s with
    | none =>
      rw [hm] at h
      simp only [Option.orElse] at h
      obtain ⟨h1, l', hl', h2⟩ := ih h
      exact ⟨h1, l', List.mem_cons_of_mem _ hl', h2⟩
    | some v =>
      rw [hm] at h
      simp only [Option.orElse] at h
      cases h
      obtain ⟨h1, h2⟩ := matchLitCI_spec hm
      exact ⟨h1, l, List.mem_cons_self l ls, h2⟩

/-- `firstLitCI` succeeds whenever some alternative matches. -/
theorem firstLitCI_isSome_of_mem {lits : List Str} {l s : Str}
    (hl : l ∈ lits) (h : (matchLitCI l s).isSome) :
    (firstLitCI lits s).isSome := by
  induction lits with
  | nil => cases hl
  | cons x xs ih =>
    simp only [firstLitCI]
    cases hx : matchLitCI x s with
    | none =>
      simp only [Option.orElse]
      rcases List.mem_cons.mp hl with rfl | hl'
      · rw [hx] at h; simp at h
      · exact ih hl'
    | some v => simp [Option.orElse, hx]

/-- `takeDigits12` decomposition. -/
theorem takeDigits12_spec : ∀ {s : Str} {h : Nat} {ds r : Str},
    takeDigits12 s = some (h, ds, r) →
    s = ds ++ r ∧ ds ≠ [] ∧ ∀ c ∈ ds, isDig c = true := by
  intro s h ds r hd
  match s with
  | [] => simp [takeDigits12] at hd
  | [c1] =>
    simp only [takeDigits12] at hd
    split at hd
    · next h1 =>
      cases hd
      refine ⟨rfl, by simp, ?_⟩
      intro c hc
      rw [List.mem_singleton] at hc
      exact hc ▸ h1
    · simp at hd
  | c1 :: c2 :: rest =>
    simp only [takeDigits12] at hd
    split at hd
    · next h1 =>
      split at hd
      · next h2 =>
        cases hd
        refine ⟨rfl, by simp, ?_⟩
        intro c hc
        rcases (by simpa using hc : c = c1 ∨ c = c2) with rfl | rfl
        · exact h1
        · exact h2
      · next h2 =>
        cases hd
        refine ⟨rfl, by simp, ?_⟩
        intro c hc
        rw [List.mem_singleton] at hc
        exact hc ▸ h1
    · simp at hd

/-- `wsOptThenLits` decomposition. -/
theorem wsOptThenLits_spec {lits : List Str} {s m r : Str}
    (h : wsOptThenLits lits s = some (m, r)) :
    s = m ++ r ∧
      ((∃ l ∈ lits, lowerStr m = lowerStr l) ∨
       (∃ c m', m = c :: m' ∧ isWs c = true ∧ ∃ l ∈ lits, lowerStr m' = lowerStr l)) := by
  cases s with
  | nil => simp [wsOptThenLits] at h
  | cons c rest =>
    simp only [wsOptThenLits] at h
    split at h
    · next hws =>
      cases hf : firstLitCI lits rest with
      | some v =>
        rw [hf] at h
        cases v with
        | mk m' r' =>
          simp only at h
          cases h
          obtain ⟨h1, hl⟩ := firstLitCI_spec hf
          exact ⟨by rw [h1]; rfl, Or.inr ⟨c, m', rfl, hws, hl⟩⟩
      | none =>
        rw [hf] at h
        obtain ⟨h1, hl⟩ := firstLitCI_spec h
        exact ⟨h1, Or.inl hl⟩
    · obtain ⟨h1, hl⟩ := firstLitCI_spec h
      exact ⟨h1, Or.inl hl⟩

/-- `wsOptThenLits` replay on the consumed text with any tail (the
alternatives must be nonempty literals). -/
theorem wsOptThenLits_replay {lits : List Str} {s m r : Str}
    (hne : ∀ l ∈ lits, l ≠ []) (h : wsOptThenLits lits s = some (m, r)) :
    ∀ t, (wsOptThenLits lits (m ++ t)).isSome := by
  intro t
  obtain ⟨-, hcase⟩ := wsOptThenLits_spec h
  rcases hcase with ⟨l, hl, hm⟩ | ⟨c, m', rfl, hws, l, hl, hm⟩
  · have hmn : m ≠ [] := by
      intro hnil
      apply hne l hl
      have : lowerStr l = [] := by rw [← hm, hnil]; rfl
      cases l with
      | nil => rfl
      | cons x xs => simp [lowerStr] at this
    obtain ⟨c0, m0, rfl⟩ := List.exists_cons_of_ne_nil hmn
    have hfirst : (firstLitCI lits ((c0 :: m0) ++ t)).isSome := by
      apply firstLitCI_isSome_of_mem hl
      rw [matchLitCI_replay hm t]
      rfl
    simp only [List.cons_append, wsOptThenLits]
    split
    · cases hf : firstLitCI lits (m0 ++ t) with
      | some v => simp
      | none => simpa [List.cons_append] using hfirst
    · simpa [List.cons_append] using hfirst
  · have hfirst : (firstLitCI lits (m' ++ t)).isSome := by
      apply firstLitCI_isSome_of_mem hl
      rw [matchLitCI_replay hm t]
      rfl
    simp only [List.cons_append, wsOptThenLits]
    rw [if_pos hws]
    cases hf : firstLitCI lits (m' ++ t) with
    | some v => simp
    | none => rw [hf] at hfirst; simp at hfirst

/-- Characters consumed by `wsOptThenLits` are whitespace or lower-case to
a character of one of the literals. -/
theorem wsOptThenLits_chars {lits : List Str} {s m r : Str}
    (h : wsOptThenLits lits s = some (m, r)) :
    ∀ c ∈ m, isWs c = true ∨ ∃ l ∈ lits, c.toLower ∈ lowerStr l := by
  intro c hc
  obtain ⟨-, hcase⟩ := wsOptThenLits_spec h
  rcases hcase with ⟨l, hl, hm⟩ | ⟨c0, m', rfl, hws, l, hl, hm⟩
  · right
    exact ⟨l, hl, hm ▸ List.mem_map_of_mem Char.toLower hc⟩
  · rcases List.mem_cons.mp hc with rfl | hc
    · left; exact hws
    · right
      exact ⟨l, hl, hm ▸ List.mem_map_of_mem Char.toLower hc⟩

/-- Matches of `pWordAt` contain no colon when no literal does. -/
theorem pWordAt_noColon {lits : List Str} {s : Str} {h : Nat} {m0 : Str}
    (hlits : ∀ l ∈ lits, ':' ∉ lowerStr l)
    (hp : pWordAt lits s = some (h, m0)) :
    containsSub ":".toList m0 = false := by
  have hnotin : ':' ∉ m0 := by
    intro hmem
    simp only [pWordAt] at hp
    split at hp
    · exact absurd hp (by simp)
    · rename_i v hh ds r1 hd
      split at hp
      · rename_i w tail rest2 hw
        cases hp
        obtain ⟨-, -, hdig⟩ := takeDigits12_spec hd
        rcases List.mem_append.mp hmem with hin | hin
        · have := hdig _ hin
          simp [isDig] at this
        · rcases wsOptThenLits_chars hw _ hin with hws | ⟨l, hl, hmm⟩
          · simp [isWs] at hws
          · exact hlits l hl (by simpa using hmm)
      · exact absurd hp (by simp)
  cases hcs : containsSub ":".toList m0 with
  | false => rfl
  | true =>
    exact absurd (containsSub_single.mp (by simpa using hcs)) hnotin

/-- Matches of the colon pattern `p1At` satisfy the inner
`\d{1,2}\s?(AM|PM)` test. -/
theorem p1At_hasInner {s : Str} {h : Nat} {m0 : Str}
    (hp : p1At s = some (h, m0)) : hasInnerAmPm m0 = true := by
  simp only [p1At] at hp
  split at hp
  · exact absurd hp (by simp)
  · rename_i v hh ds r1 hd
    split at hp
    · rename_i m1 m2 r2
      split at hp
      · rename_i hdm
        split at hp
        · rename_i w tail rest2 hw
          cases hp
          have hsome : (p2At (m1 :: m2 :: tail)).isSome := by
            have h12 : takeDigits12 (m1 :: m2 :: tail) =
                some (dval m1 * 10 + dval m2, [m1, m2], tail) := by
              rw [Bool.and_eq_true] at hdm
              simp only [takeDigits12]
              rw [if_pos hdm.1, if_pos hdm.2]
            have hws := wsOptThenLits_replay
              (by decide : ∀ l ∈ ["am".toList, "pm".toList], l ≠ []) hw []
            rw [List.append_nil] at hws
            obtain ⟨w2, hw2⟩ := Option.isSome_iff_exists.mp hws
            simp only [p2At, pWordAt, h12, hw2]
            rfl
          rw [show ds ++ ':' :: m1 :: m2 :: tail =
            (ds ++ [':']) ++ m1 :: m2 :: tail by simp] at *
          unfold hasInnerAmPm
          obtain ⟨v2, hv2⟩ := Option.isSome_iff_exists.mp hsome
          exact scanFor_append_isSome (hv2 ▸ (by rfl))
        · exact absurd hp (by simp)
      · exact absurd hp (by simp)
    · exact absurd hp (by simp)

/-- Canonical `H:00 AM/PM` output shape of the time parser. -/
def canonicalTime (r : Str) : Prop :=
  ∃ h ap, (ap = "AM".toList ∨ ap = "PM".toList) ∧ r = mkTime h ap

/-- The normalisation chain yields a canonical time unless it reaches the
raw-`match[0]` branch, which requires a colon and no inner AM/PM. -/
theorem normalizeMatch_shape {h : Nat} {m0 r : Str}
    (hn : normalizeMatch h m0 = some r) :
    canonicalTime r ∨
      (hasInnerAmPm m0 = false ∧ containsSub ":".toList m0 = true ∧ r = m0) := by
  unfold normalizeMatch at hn
  split at hn
  · cases hn; exact Or.inl ⟨h, _, Or.inl rfl, rfl⟩
  · split at hn
    · cases hn; exact Or.inl ⟨_, _, Or.inr rfl, rfl⟩
    · split at hn
      · cases hn; exact Or.inl ⟨_, _, Or.inr rfl, rfl⟩
      · split at hn
        · cases hn; exact Or.inl ⟨_, _, Or.inr rfl, rfl⟩
        · split at hn
          · next hin =>
            split at hn
            · cases hn; exact Or.inl ⟨h, _, Or.inl rfl, rfl⟩
            · cases hn; exact Or.inl ⟨h, _, Or.inr rfl, rfl⟩
          · next hin =>
            split at hn
            · next hcol =>
              cases hn
              exact Or.inr ⟨Bool.not_eq_true _ ▸ Bool.eq_false_iff.mpr hin, hcol, rfl⟩
            · cases hn

/-- A pattern is benign when its matches never reach the raw branch. -/
def patOK (p : Str → Option (Nat × Str)) : Prop :=
  ∀ s h m0, p s = some (h, m0) →
    hasInnerAmPm m0 = true ∨ containsSub ":".toList m0 = false

theorem parseTimeGo_shape : ∀ (ps : List (Str → Option (Nat × Str))),
    (∀ p ∈ ps, patOK p) → ∀ text r, parseTimeGo ps text = some r →
    canonicalTime r := by
  intro ps
  induction ps with
  | nil => intro _ text r h; simp [parseTimeGo] at h
  | cons p rest ih =>
    intro hok text r h
    simp only [parseTimeGo] at h
    cases hs : scanFor p text with
    | none =>
      rw [hs] at h
      exact ih (fun q hq => hok q (List.mem_cons_of_mem _ hq)) text r h
    | some v =>
      obtain ⟨hh, m0⟩ := v
      rw [hs] at h
      simp only at h
      cases hn : normalizeMatch hh m0 with
      | none =>
        rw [hn] at h
        exact ih (fun q hq => hok q (List.mem_cons_of_mem _ hq)) text r h
      | some r' =>
        rw [hn] at h
        cases h
        obtain ⟨s', hs'⟩ := scanFor_spec hs
        rcases normalizeMatch_shape hn with hshape | ⟨hinner, hcolon, rfl⟩
        · exact hshape
        · rcases hok p (List.mem_cons_self _ _) s' _ _ hs' with hk | hk
          · rw [hk] at hinner; cases hinner
          · rw [hk] at hcolon; cases hcolon

/-- Every successful parse of `parseTimeFromText` has the canonical
`H:00 AM/PM` shape (in particular, the raw-`match[0]` branch of the
normalisation chain is dead code). -/
theorem parseTime_shape {t r : Str} (h : parseTimeFromText t = some r) :
    canonicalTime r := by
  apply parseTimeGo_shape timePatterns ?_ t r h
  intro p hp s hh m0 hm
  have hlits2 : ∀ l ∈ ["am".toList, "pm".toList], ':' ∉ lowerStr l := by decide
  simp only [timePatterns] at hp
  rcases (by simpa using hp :
      p = p1At ∨ p = p2At ∨ p = p3At ∨ p = p4At ∨ p = p5At ∨ p = p6At ∨ p = p7At)
    with rfl | rfl | rfl | rfl | rfl | rfl | rfl
  · exact Or.inl (p1At_hasInner hm)
  · exact Or.inr (pWordAt_noColon hlits2 hm)
  · exact Or.inr (pWordAt_noColon (by decide) hm)
  · exact Or.inr (pWordAt_noColon (by decide) hm)
  · exact Or.inr (pWordAt_noColon (by decide) hm)
  · exact Or.inr (pWordAt_noColon (by decide) hm)
  · exact Or.inr (pWordAt_noColon (by decide) hm)

/-- A parsed time is never the empty string (its canonical shape starts
with a digit character). -/
theorem parseTime_ne_nil {t r : Str} (h : parseTimeFromText t = some r) :
    r ≠ [] := by
  obtain ⟨hh, ap, -, rfl⟩ := parseTime_shape h
  unfold mkTime hourStr
  split <;> simp

/-- The messages of `addUserMessage`, in closed form. -/
theorem addUserMessage_messages (s : Session) (text : Str) (final : Bool) :
    (addUserMessage s text final).messages =
      s.messages ++
        (if final && !(jsTrim text).isEmpty then [⟨Role.user, text⟩] else []) := by
  unfold addUserMessage
  split <;> simp

/-- `addUserMessage` does not touch `collectedData`. -/
theorem addUserMessage_collectedData (s : Session) (text : Str) (final : Bool) :
    (addUserMessage s text final).collectedData = s.collectedData := by
  unfold addUserMessage
  split <;> rfl

/-- A turn input whose both providers throw (and whose other collaborator
behaviour is immaterial). -/
def bothFailInput : TurnInput :=
  { text := "hi".toList
    final := true
    availableSlots := []
    pick := 0
    primary := .error ()
    secondary := .error ()
    jsonParse := fun _ => none }

/-! ## Claim C1 -/

/-- C1 counterexample: the claim says a turn whose LLM call fails fatally
leaves `session.messages` exactly as before the turn. On a fresh session,
a final non-empty utterance whose turn fails with "both providers failed"
nevertheless grows the history: `addUserMessage` appended the user message
before the LLM call. -/
theorem C1_counterexample :
    (processTurn (initialSession "s".toList) bothFailInput).2 =
      Except.error "Both LLM providers failed".toList ∧
    (processTurn (initialSession "s".toList) bothFailInput).1.messages ≠
      (initialSession "s".toList).messages := by
  exact ⟨rfl, by decide⟩

/-- C1 (amended): on a turn that fails (both providers threw, or the
completion content was missing/empty), the turn surfaces an error and no
assistant message is appended; however the user's utterance — when `final`
and non-empty after trimming — has already been appended before the LLM
call, so `messages` grows by exactly that user message and nothing else.
On a successful turn the history additionally gains exactly the raw
assistant output. -/
theorem C1_amended_failed_turn :
    (∀ (s : Session) (inp : TurnInput) (e : Str),
      (processTurn s inp).2 = .error e →
      (processTurn s inp).1.messages =
        s.messages ++
          (if inp.final && !(jsTrim inp.text).isEmpty
           then [⟨Role.user, inp.text⟩] else [])) ∧
    (∀ (s : Session) (inp : TurnInput) (r : TurnResponse),
      (processTurn s inp).2 = .ok r →
      ∃ c, (processTurn s inp).1.messages =
        (s.messages ++
          (if inp.final && !(jsTrim inp.text).isEmpty
           then [⟨Role.user, inp.text⟩] else [])) ++ [⟨Role.assistant, c⟩]) := by
  constructor
  · intro s inp e h
    unfold processTurn at h ⊢
    generalize (createChatCompletion inp.primary inp.secondary).2 = X at h ⊢
    cases X with
    | error e' =>
      simp [addUserMessage_messages]
    | ok v =>
      obtain ⟨content?, prov⟩ := v
      cases content? with
      | none => simp [addUserMessage_messages]
      | some content =>
        simp only at h
        split at h
        · next hemp =>
          simp [hemp, addUserMessage_messages]
        · exact absurd h (by simp)
  · intro s inp r h
    unfold processTurn at h ⊢
    generalize (createChatCompletion inp.primary inp.secondary).2 = X at h ⊢
    cases X with
    | error e' => exact absurd h (by simp)
    | ok v =>
      obtain ⟨content?, prov⟩ := v
      cases content? with
      | none => exact absurd h (by simp)
      | some content =>
        simp only at h
        split at h
        · exact absurd h (by simp)
        · next hne =>
          refine ⟨content, ?_⟩
          simp [hne, addUserMessage_messages]

/-- C1 amended-theorem witness at the concrete counterexample input. -/
theorem C1_witness :
    (processTurn (initialSession "s".toList) bothFailInput).1.messages =
      (initialSession "s".toList).messages ++ [⟨Role.user, "hi".toList⟩] := by
  have := C1_amended_failed_turn.1 (initialSession "s".toList) bothFailInput
    "Both LLM providers failed".toList rfl
  simpa using this

/-! ## Claim C7 -/

/-- C7: the gateway always attempts Groq first with `baseParams`; on any
primary exception it makes exactly one fallback attempt on OpenAI with the
same `baseParams` (never more than one retry); when both throw it raises
"Both LLM providers failed", which `processVoiceAgentRequest` surfaces as
the terminal turn failure. -/
theorem C7_llm_gateway_fallback :
    (∀ (p s : ProviderResult) (c : Option Str), p = .ok c →
      createChatCompletion p s =
        ([(Provider.groq, baseParams)], .ok (c, Provider.groq))) ∧
    (∀ (s : ProviderResult),
      (createChatCompletion (.error ()) s).1 =
        [(Provider.groq, baseParams), (Provider.openai, baseParams)]) ∧
    (∀ (c : Option Str),
      (createChatCompletion (.error ()) (.ok c)).2 = .ok (c, Provider.openai)) ∧
    ((createChatCompletion (.error ()) (.error ())).2 =
      .error "Both LLM providers failed".toList) ∧
    (∀ (sess : Session) (inp : TurnInput),
      inp.primary = .error () → inp.secondary = .error () →
      (processTurn sess inp).2 = .error "Both LLM providers failed".toList) := by
  refine ⟨?_, ?_, ?_, rfl, ?_⟩
  · rintro p s c rfl; rfl
  · intro s; cases s <;> rfl
  · intro c; rfl
  · intro sess inp hp hs
    unfold processTurn
    rw [hp, hs]
    rfl

/-- C7 witness: both providers failing on a fresh session is a terminal
turn failure after exactly the two attempts. -/
theorem C7_witness :
    (processTurn (initialSession "w".toList) bothFailInput).2 =
      .error "Both LLM providers failed".toList :=
  C7_llm_gateway_fallback.2.2.2.2 (initialSession "w".toList) bothFailInput rfl rfl

/-! ## Claim C6 -/

/-- C6 counterexample: the claim says every unparsable model output yields
the fixed "please repeat that" reply. For the unparsable output `hello`
(no brace), the fallback passes the raw output through as the reply
instead of the fixed apology. -/
theorem C6_counterexample :
    parseLLMResponse none "hello".toList =
      { replyText := "hello".toList, askFor := none, readyToBook := false } ∧
    "hello".toList ≠ apologyText := by
  exact ⟨rfl, by decide⟩

/-- C6 (amended): when the model output fails to parse as the expected
structured object (JSON exception, or missing/empty `replyText`), the
turn-level result has `askFor = null` and `readyToBook = false`, and the
reply is the fixed apology when the raw output contains a brace and the
raw output itself otherwise; the parse error is never propagated (the
parser is total). -/
theorem C6_amended_parse_failure :
    ∀ (jp : Option JsonReply) (raw : Str),
      (jp = none ∨ ∃ j, jp = some j ∧ (j.replyText = none ∨ j.replyText = some [])) →
      parseLLMResponse jp raw =
        { replyText := if raw.contains braceChar then apologyText else raw
          askFor := none
          readyToBook := false } := by
  intro jp raw h
  rcases h with rfl | ⟨j, rfl, hj⟩
  · rfl
  · rcases hj with hj | hj <;> simp [parseLLMResponse, hj, fallbackResponse]

/-- C6 witness at a concrete unparsable output. -/
theorem C6_witness :
    parseLLMResponse none "oops".toList =
      { replyText := "oops".toList, askFor := none, readyToBook := false } := by
  have := C6_amended_parse_failure none "oops".toList (Or.inl rfl)
  simpa using this

/-! ## Claim C5 -/

/-- C5 counterexample: the claim says the seven surface forms (including
`H o'clock`) are recognized and normalized, with the minute taken from the
colon form when supplied. In the code, an o'clock match falls through every
branch of the normalisation chain and yields no result, and the colon
form's minutes are discarded. -/
theorem C5_counterexample :
    parseTimeFromText "3 o'clock".toList = none ∧
    parseTimeFromText "3:30 PM".toList = some "3:00 PM".toList := by
  exact ⟨rfl, rfl⟩

/-- C5 (amended): the seven patterns are tried in priority order and every
successful parse is a canonical `H:00 AM/PM` string — the minute is always
forced to `00`, also for the colon form; morning maps to AM and
afternoon/evening/night to PM; an o'clock match produces no result from
its pattern (only strictly later patterns can still fire), and
unrecognized text yields no match rather than an error. -/
theorem C5_amended_time_parsing :
    (∀ t r, parseTimeFromText t = some r → canonicalTime r) ∧
    parseTimeFromText "3:00 PM".toList = some "3:00 PM".toList ∧
    parseTimeFromText "3PM".toList = some "3:00 PM".toList ∧
    parseTimeFromText "9 in the morning".toList = some "9:00 AM".toList ∧
    parseTimeFromText "6 in the evening".toList = some "6:00 PM".toList ∧
    parseTimeFromText "could we talk sometime".toList = none ∧
    parseTimeFromText "3 o'clock".toList = none ∧
    parseTimeFromText "3:30 PM".toList = some "3:00 PM".toList := by
  exact ⟨fun _ _ h => parseTime_shape h, rfl, rfl, rfl, rfl, rfl, rfl, rfl⟩

/-- C5 witness: the canonical-shape clause applied at a concrete parse. -/
theorem C5_witness : canonicalTime "3:00 PM".toList :=
  C5_amended_time_parsing.1 "3PM".toList "3:00 PM".toList (by rfl)

/-- An embedded alternative time is never the empty string. -/
theorem alternativeTimeOf_ne_nil {text t : Str}
    (h : alternativeTimeOf text = some t) : t ≠ [] := by
  unfold alternativeTimeOf at h
  cases hf : altWords.findSome?
      (fun w => (altPatternMatch w text).map (fun g => (w, g))) with
  | none => rw [hf] at h; cases h
  | some v =>
    rw [hf] at h
    exact parseTime_ne_nil h

/-- A session state in which a slot suggestion is pending judgement:
name and email collected, one suggested slot outstanding. -/
def pendingSlotState : CollectedData :=
  { name := some "jane".toList
    email := some "jane@acme.com".toList
    lastSuggestedSlot := some "10:00 AM".toList }

/-- A neutral parsed model reply (`askFor = null`). -/
def neutralReply : ParsedResponse :=
  { replyText := "Does that time work for you?".toList
    askFor := none
    readyToBook := false }

/-! ## Claim C3 -/

/-- C3: the classifier treats an utterance containing the word `busy`
(`\bbusy\b`) as a rejection unless a modal/negator immediately precedes
`busy` (optionally with `be` between them, the source's
`negatedBusyPattern`); "no that doesn't work" is a rejection with no
embedded alternative (the pending slot moves to `rejectedSlots`,
`meetingPreference` stays unset), "no, but 3pm works" is a rejection whose
embedded alternative resolves to `3:00 PM` and is written directly to
`meetingPreference`, and "I won't be busy then" is not classified as a
rejection and leaves the collected data untouched. -/
theorem C3_busy_rejection :
    (∀ t, hasRawBusy t = true → negatedBusyTest t = false →
      isBusyRejection t = true) ∧
    (∀ t, negatedBusyTest t = true → isBusyRejection t = false) ∧
    extractCollectedData pendingSlotState "no that doesn't work".toList neutralReply =
      { pendingSlotState with
        rejectedSlots := ["10:00 AM".toList]
        lastSuggestedSlot := none } ∧
    extractCollectedData pendingSlotState "no, but 3pm works".toList neutralReply =
      { pendingSlotState with
        rejectedSlots := ["10:00 AM".toList]
        lastSuggestedSlot := none
        meetingPreference := some "3:00 PM".toList } ∧
    hasRejectionIn (jsTrim (lowerStr "I won't be busy then".toList)) = false ∧
    extractCollectedData pendingSlotState "I won't be busy then".toList neutralReply =
      pendingSlotState := by
  refine ⟨?_, ?_, by decide, by decide, by decide, by decide⟩
  · intro t h1 h2
    simp [isBusyRejection, h1, h2]
  · intro t h
    cases hr : hasRawBusy t <;> simp [isBusyRejection, hr, h]

/-- C3 witness: the busy clauses applied at concrete utterances. -/
theorem C3_witness :
    isBusyRejection "i am busy then".toList = true ∧
    isBusyRejection "i won't be busy then".toList = false := by
  exact ⟨C3_busy_rejection.1 "i am busy then".toList (by rfl) (by rfl),
    C3_busy_rejection.2.1 "i won't be busy then".toList (by rfl)⟩

/-! ## Claim C2 -/

/-- The utterance of the C2 counterexample: thirty filler characters, a
negative word, then a bare time. -/
def c2Utterance : Str := "zzzzzzzzzzzzzzzzzzzzzzzzzzzzzz not 3pm".toList

/-- C2 counterexample: the claim says a bare parsed time is discarded
whenever a negative-sentiment word appears within a 20-character window
around the time's occurrence in the utterance. Here no rejection or
acceptance fires, `3pm` occurs at index 35 and the negative word `not` at
index 31 — well inside such a window — yet the parsed time is written to
`meetingPreference`, because the code centres its window on
`text.indexOf(parsedTime.toLowerCase())`, which is `-1` (the canonical
form `3:00 pm` does not occur), so only the first 26 characters are
scanned. -/
theorem C2_counterexample :
    hasRejectionIn (jsTrim (lowerStr c2Utterance)) = false ∧
    hasAcceptanceIn (jsTrim (lowerStr c2Utterance)) = false ∧
    parseTimeFromText c2Utterance = some "3:00 PM".toList ∧
    indexOfSub "3pm".toList c2Utterance = some 35 ∧
    indexOfSub "not".toList c2Utterance = some 31 ∧
    jsIndexOf c2Utterance (lowerStr "3:00 PM".toList) = -1 ∧
    (extractCollectedData { pendingSlotState with lastSuggestedSlot := none }
        c2Utterance neutralReply).meetingPreference = some "3:00 PM".toList := by
  exact ⟨rfl, rfl, rfl, rfl, rfl, rfl, by decide⟩

/-- C2 (amended): in the accept/reject branch (trimmed utterance nonempty,
name and email collected, `meetingPreference` unset), explicit rejection
takes effect over explicit acceptance, which takes effect over a bare
parsed time, which takes effect over no-match; a bare parsed time is
discarded when a negative-sentiment word occurs in the window
`text.substring(max(0, i-20), i+len+20)` where
`i = text.indexOf(parsedTime.toLowerCase())` — the window around the
first occurrence of the lower-cased canonical time in the raw utterance,
or the first `len+19` characters when it does not occur (`i = -1`). In the
non-rejection cases with no acceptance-slot or time write, the
`askFor = confirmation` safety net may still copy a pending suggested
slot into `meetingPreference`. -/
theorem C2_amended_precedence :
    ∀ (cd : CollectedData) (text : Str) (pr : ParsedResponse),
      (jsTrim text).isEmpty = false →
      truthy cd.name = true →
      truthy cd.email = true →
      cd.meetingPreference = none →
      (hasRejectionIn (jsTrim (lowerStr text)) = true →
        (extractCollectedData cd text pr).meetingPreference = alternativeTimeOf text ∧
        (extractCollectedData cd text pr).lastSuggestedSlot = none) ∧
      (hasRejectionIn (jsTrim (lowerStr text)) = false →
       hasAcceptanceIn (jsTrim (lowerStr text)) = true →
        (extractCollectedData cd text pr).meetingPreference =
          (if truthy cd.lastSuggestedSlot then cd.lastSuggestedSlot else none) ∧
        (extractCollectedData cd text pr).rejectedSlots = cd.rejectedSlots) ∧
      (∀ pt, hasRejectionIn (jsTrim (lowerStr text)) = false →
       hasAcceptanceIn (jsTrim (lowerStr text)) = false →
       parseTimeFromText text = some pt →
        (extractCollectedData cd text pr).meetingPreference =
          (if negativeContextFor text pt = true then
            (if pr.askFor == some "confirmation".toList && truthy cd.lastSuggestedSlot
             then cd.lastSuggestedSlot else none)
           else some pt)) ∧
      (hasRejectionIn (jsTrim (lowerStr text)) = false →
       hasAcceptanceIn (jsTrim (lowerStr text)) = false →
       parseTimeFromText text = none →
        (extractCollectedData cd text pr).meetingPreference =
          (if pr.askFor == some "confirmation".toList && truthy cd.lastSuggestedSlot
           then cd.lastSuggestedSlot else none) ∧
        (extractCollectedData cd text pr).rejectedSlots = cd.rejectedSlots) := by
  intro cd text pr htrim hname hemail hpref
  have truthy_none : truthy none = false := rfl
  have truthy_some : ∀ s : Str, truthy (some s) = !s.isEmpty := fun _ => rfl
  refine ⟨?_, ?_, ?_, ?_⟩
  · intro hrej
    unfold extractCollectedData
    cases halt : alternativeTimeOf text with
    | none =>
      cases hl : cd.lastSuggestedSlot with
      | none =>
        simp [htrim, hname, hemail, hpref, hrej, halt, hl, truthy_none]
      | some slot =>
        by_cases hpush : ¬slot = [] ∧ slot ∉ cd.rejectedSlots
        · simp [htrim, hname, hemail, hpref, hrej, halt, hl, hpush, truthy_none]
        · simp [htrim, hname, hemail, hpref, hrej, halt, hl, hpush, truthy_none]
    | some t =>
      have hne := alternativeTimeOf_ne_nil halt
      cases hl : cd.lastSuggestedSlot with
      | none =>
        simp [htrim, hname, hemail, hpref, hrej, halt, hl, truthy_none,
          truthy_some, hne]
      | some slot =>
        by_cases hpush : ¬slot = [] ∧ slot ∉ cd.rejectedSlots
        · simp [htrim, hname, hemail, hpref, hrej, halt, hl, hpush, truthy_none,
            truthy_some, hne]
        · simp [htrim, hname, hemail, hpref, hrej, halt, hl, hpush, truthy_none,
            truthy_some, hne]
  · intro hrej hacc
    unfold extractCollectedData
    cases hl : cd.lastSuggestedSlot with
    | none =>
      simp [htrim, hname, hemail, hpref, hrej, hacc, hl, truthy_none]
    | some slot =>
      cases hse : slot.isEmpty with
      | true =>
        simp [htrim, hname, hemail, hpref, hrej, hacc, hl, hse, truthy_none,
          truthy_some]
      | false =>
        simp [htrim, hname, hemail, hpref, hrej, hacc, hl, hse, truthy_none,
          truthy_some]
  · intro pt hrej hacc hpt
    have hptne : (pt.isEmpty = true) = False := by
      simp [List.isEmpty_iff, parseTime_ne_nil hpt]
    unfold extractCollectedData
    cases hneg : negativeContextFor text pt with
    | true =>
      cases hl : cd.lastSuggestedSlot with
      | none =>
        simp [htrim, hname, hemail, hpref, hrej, hacc, hpt, hneg, hl, truthy_none]
      | some slot =>
        simp only [htrim, hname, hemail, hpref, hrej, hacc, hpt, hneg, hl,
          truthy_none, truthy_some]
        simp [htrim, hname, hemail, hpref, hrej, hacc, hpt, hneg, hl,
          truthy_none, truthy_some]
        split <;> simp [hpref]
    | false =>
      simp [htrim, hname, hemail, hpref, hrej, hacc, hpt, hneg, truthy_none,
        truthy_some, hptne]
  · intro hrej hacc hpt
    cases hl : cd.lastSuggestedSlot with
    | none =>
      unfold extractCollectedData
      simp [htrim, hname, hemail, hpref, hrej, hacc, hpt, hl, truthy_none]
    | some slot =>
      unfold extractCollectedData
      simp [htrim, hname, hemail, hpref, hrej, hacc, hpt, hl, truthy_none,
        truthy_some]
      constructor
      · split <;> simp [hpref]
      · split <;> simp

/-- C2 witness: the rejection-precedence clause at a concrete rejecting
utterance carrying an embedded alternative. -/
theorem C2_witness :
    (extractCollectedData pendingSlotState "no, but 3pm works".toList
        neutralReply).meetingPreference =
      alternativeTimeOf "no, but 3pm works".toList ∧
    (extractCollectedData pendingSlotState "no, but 3pm works".toList
        neutralReply).lastSuggestedSlot = none :=
  (C2_amended_precedence pendingSlotState "no, but 3pm works".toList neutralReply
      rfl rfl rfl rfl).1 (by rfl)

/-! ## Claim C8 -/

/-- Once `meetingPreference` holds a (truthy) value, `extractCollectedData`
leaves it unchanged: every assigning path is guarded by the field being
unset. -/
theorem extract_preserves_pref {cd : CollectedData} {text : Str}
    {pr : ParsedResponse} {v : Str} (hv : v ≠ [])
    (h : cd.meetingPreference = some v) :
    (extractCollectedData cd text pr).meetingPreference = some v := by
  have hvb : v.isEmpty = false := by simp [List.isEmpty_iff, hv]
  unfold extractCollectedData
  split
  · exact h
  · split
    · simp [h, truthy, hvb]
    · split
      · split
        · split <;> simp [h, truthy, hvb]
        · simp [h, truthy, hvb]
      · split
        · next hcond => simp [h, truthy, hvb] at hcond
        · split
          · next hcond => simp [h, truthy, hvb] at hcond
          · simp [h, truthy, hvb]

/-- Once `meetingPreference` is set, the slot-suggestion context-injection
step is skipped entirely: no context message and no state change. -/
theorem addTimeSlot_skip {cd : CollectedData} {slots : List Str} {pick : Nat}
    {v : Str} (hv : v ≠ []) (h : cd.meetingPreference = some v) :
    addTimeSlotContext cd slots pick = (cd, none) := by
  have hvb : v.isEmpty = false := by simp [List.isEmpty_iff, hv]
  unfold addTimeSlotContext
  rw [if_neg]
  simp [h, truthy, hvb]

/-- One whole turn preserves a truthy `meetingPreference`. -/
theorem processTurn_preserves_pref {s : Session} {inp : TurnInput} {v : Str}
    (hv : v ≠ []) (h : s.collectedData.meetingPreference = some v) :
    (processTurn s inp).1.collectedData.meetingPreference = some v := by
  have h1 : (addUserMessage s inp.text inp.final).collectedData.meetingPreference = some v := by
    rw [addUserMessage_collectedData]; exact h
  have h2 : ((addTimeSlotContext (addUserMessage s inp.text inp.final).collectedData
      inp.availableSlots inp.pick).1).meetingPreference = some v := by
    rw [addTimeSlot_skip hv h1]
    exact h1
  unfold processTurn
  generalize (createChatCompletion inp.primary inp.secondary).2 = X
  cases X with
  | error e => exact h2
  | ok w =>
    obtain ⟨content?, prov⟩ := w
    cases content? with
    | none => exact h2
    | some content =>
      simp only
      split
      · exact h2
      · exact extract_preserves_pref hv h2

/-- C8: `collectedData.meetingPreference` is written at most once — every
assigning code path is guarded by the field being unset, so once it holds
a truthy value, field extraction preserves it, the slot-suggestion
context-injection step never runs again, and any further sequence of
processed turns leaves it unchanged. -/
theorem C8_meeting_preference_write_once :
    ∀ (v : Str), v ≠ [] →
      (∀ (cd : CollectedData) (text : Str) (pr : ParsedResponse),
        cd.meetingPreference = some v →
        (extractCollectedData cd text pr).meetingPreference = some v) ∧
      (∀ (cd : CollectedData) (slots : List Str) (pick : Nat),
        cd.meetingPreference = some v →
        addTimeSlotContext cd slots pick = (cd, none)) ∧
      (∀ (s : Session) (inputs : List TurnInput),
        s.collectedData.meetingPreference = some v →
        (foldTurns s inputs).collectedData.meetingPreference = some v) := by
  intro v hv
  refine ⟨fun _ _ _ h => extract_preserves_pref hv h,
    fun _ _ _ h => addTimeSlot_skip hv h, ?_⟩
  intro s inputs
  induction inputs generalizing s with
  | nil => intro h; exact h
  | cons i rest ih =>
    intro h
    exact ih _ (processTurn_preserves_pref hv h)

/-- C8 witness: a session whose preference is set keeps it across a turn,
and the suggestion step injects nothing. -/
theorem C8_witness :
    (foldTurns
        { initialSession "w8".toList with
          collectedData := { meetingPreference := some "3:00 PM".toList } }
        [bothFailInput]).collectedData.meetingPreference =
      some "3:00 PM".toList ∧
    addTimeSlotContext { meetingPreference := some "3:00 PM".toList }
        ["9:00 AM".toList] 0 =
      ({ meetingPreference := some "3:00 PM".toList }, none) := by
  refine ⟨(C8_meeting_preference_write_once "3:00 PM".toList (by decide)).2.2
      _ [bothFailInput] rfl,
    (C8_meeting_preference_write_once "3:00 PM".toList (by decide)).2.1
      _ ["9:00 AM".toList] 0 rfl⟩

/-! ## Claim C10 -/

/-- Appending a fresh element preserves duplicate-freedom. -/
theorem nodup_append_single {l : List Str} {a : Str} (h : l.Nodup)
    (hna : a ∉ l) : (l ++ [a]).Nodup := by
  simp only [List.nodup_append, List.nodup_cons, List.not_mem_nil,
    not_false_iff, List.nodup_nil, and_true, true_and,
    List.disjoint_singleton]
  exact ⟨h, hna⟩

/-- `extractCollectedData` preserves duplicate-freedom of `rejectedSlots`:
the only append is guarded by a membership check. -/
theorem extract_preserves_nodup {cd : CollectedData} {text : Str}
    {pr : ParsedResponse} (h : cd.rejectedSlots.Nodup) :
    (extractCollectedData cd text pr).rejectedSlots.Nodup := by
  unfold extractCollectedData
  split
  · exact h
  · split
    · simpa [apply_ite (fun x : CollectedData => x.rejectedSlots)] using h
    · split
      · cases hpe : parseEmailFromVoiceText text with
        | none =>
          simpa [hpe, apply_ite (fun x : CollectedData => x.rejectedSlots)] using h
        | some e =>
          simpa [hpe, apply_ite (fun x : CollectedData => x.rejectedSlots)] using h
      · split
        · -- the accept/reject branch
          by_cases hrej : hasRejectionIn (jsTrim (lowerStr text)) = true
          · cases hl : cd.lastSuggestedSlot with
            | none =>
              cases halt : alternativeTimeOf text with
              | none =>
                simpa [hrej, hl, halt,
                  apply_ite (fun x : CollectedData => x.rejectedSlots)] using h
              | some t =>
                simpa [hrej, hl, halt,
                  apply_ite (fun x : CollectedData => x.rejectedSlots)] using h
            | some lss =>
              by_cases hpush : ¬lss = [] ∧ lss ∉ cd.rejectedSlots
              · have key := nodup_append_single h hpush.2
                cases halt : alternativeTimeOf text with
                | none =>
                  simpa [hrej, hl, halt, hpush,
                    apply_ite (fun x : CollectedData => x.rejectedSlots)] using key
                | some t =>
                  simpa [hrej, hl, halt, hpush,
                    apply_ite (fun x : CollectedData => x.rejectedSlots)] using key
              · cases halt : alternativeTimeOf text with
                | none =>
                  simpa [hrej, hl, halt, hpush,
                    apply_ite (fun x : CollectedData => x.rejectedSlots)] using h
                | some t =>
                  simpa [hrej, hl, halt, hpush,
                    apply_ite (fun x : CollectedData => x.rejectedSlots)] using h
          · by_cases hacc : hasAcceptanceIn (jsTrim (lowerStr text)) = true
            · simpa [hrej, hacc,
                apply_ite (fun x : CollectedData => x.rejectedSlots)] using h
            · cases hptt : parseTimeFromText text with
              | none =>
                simpa [hrej, hacc, hptt,
                  apply_ite (fun x : CollectedData => x.rejectedSlots)] using h
              | some pt =>
                simpa [hrej, hacc, hptt,
                  apply_ite (fun x : CollectedData => x.rejectedSlots)] using h
        · split
          · cases hptt : parseTimeFromText text with
            | none =>
              simpa [hptt,
                apply_ite (fun x : CollectedData => x.rejectedSlots)] using h
            | some t =>
              simpa [hptt,
                apply_ite (fun x : CollectedData => x.rejectedSlots)] using h
          · simpa [apply_ite (fun x : CollectedData => x.rejectedSlots)] using h

/-- `addTimeSlotContext` never changes `rejectedSlots`. -/
theorem addTimeSlot_rejectedSlots (cd : CollectedData) (slots : List Str)
    (pick : Nat) :
    (addTimeSlotContext cd slots pick).1.rejectedSlots = cd.rejectedSlots := by
  unfold addTimeSlotContext
  split
  · simp [apply_ite
      (fun p : CollectedData × Option SlotContext => p.1.rejectedSlots)]
  · rfl

/-- One whole turn preserves duplicate-freedom of `rejectedSlots`. -/
theorem processTurn_preserves_nodup {s : Session} {inp : TurnInput}
    (h : s.collectedData.rejectedSlots.Nodup) :
    (processTurn s inp).1.collectedData.rejectedSlots.Nodup := by
  unfold processTurn
  have h1 : (addUserMessage s inp.text inp.final).collectedData.rejectedSlots.Nodup := by
    rw [addUserMessage_collectedData]; exact h
  have h2 : ((addTimeSlotContext (addUserMessage s inp.text inp.final).collectedData
      inp.availableSlots inp.pick).1).rejectedSlots.Nodup := by
    rw [addTimeSlot_rejectedSlots]; exact h1
  generalize (createChatCompletion inp.primary inp.secondary).2 = X
  cases X with
  | error e => exact h2
  | ok w =>
    obtain ⟨content?, prov⟩ := w
    cases content? with
    | none => exact h2
    | some content =>
      simp only
      split
      · exact h2
      · exact extract_preserves_nodup h2

/-- C10: starting from a fresh session, `rejectedSlots` never contains a
duplicate entry over any sequence of processed turns — a slot is appended
only after checking it is not already a member. -/
theorem C10_rejected_slots_nodup :
    ∀ (sid : Str) (inputs : List TurnInput),
      ((foldTurns (initialSession sid) inputs).collectedData.rejectedSlots).Nodup := by
  intro sid inputs
  have start : (initialSession sid).collectedData.rejectedSlots.Nodup := by
    simp [initialSession]
  revert start
  generalize initialSession sid = s
  induction inputs generalizing s with
  | nil => intro h; exact h
  | cons i rest ih =>
    intro h
    exact ih _ (processTurn_preserves_nodup h)

/-! ## Claim C9 -/

/-- `Nat.digitChar` is injective below 10. -/
theorem digitChar_inj :
    ∀ a < 10, ∀ b < 10, Nat.digitChar a = Nat.digitChar b → a = b := by decide

/-- `pad2` is injective below 100. -/
theorem pad2_inj {a b : Nat} (ha : a < 100) (hb : b < 100)
    (h : pad2 a = pad2 b) : a = b := by
  simp only [pad2, List.cons.injEq, and_true] at h
  have h1 := digitChar_inj (a / 10) (by omega) (b / 10) (by omega) h.1
  have h2 := digitChar_inj (a % 10) (by omega) (b % 10) (by omega) h.2
  omega

/-- Equality of two `HH:MM` renderings decomposes into component
equalities (below 100). -/
theorem hhmm_eq_iff {a b c d : Nat} (ha : a < 100) (hb : b < 100)
    (hc : c < 100) (hd : d < 100) :
    pad2 a ++ ':' :: pad2 b = pad2 c ++ ':' :: pad2 d ↔ (a = c ∧ b = d) := by
  constructor
  · intro h
    simp only [pad2, List.cons_append, List.nil_append, List.cons.injEq,
      and_true, true_and, eq_self_iff_true] at h
    obtain ⟨h1, h2, h3, h4⟩ := h
    exact ⟨by
        have e1 := digitChar_inj (a / 10) (by omega) (c / 10) (by omega) h1
        have e2 := digitChar_inj (a % 10) (by omega) (c % 10) (by omega) h2
        omega,
      by
        have e3 := digitChar_inj (b / 10) (by omega) (d / 10) (by omega) h3
        have e4 := digitChar_inj (b % 10) (by omega) (d % 10) (by omega) h4
        omega⟩
  · rintro ⟨rfl, rfl⟩; rfl

/-- Membership in `getBookingsByDate` is membership on the same calendar
day. -/
theorem mem_getBookingsByDate {bookings : List Booking} {date : Nat}
    {b : Booking} :
    b ∈ getBookingsByDate bookings date ↔
      b ∈ bookings ∧ b.meetingTime / msPerDay = date / msPerDay := by
  unfold getBookingsByDate
  rw [List.mem_filter]
  simp only [Bool.and_eq_true, decide_eq_true_eq]
  constructor
  · rintro ⟨hm, h1, h2⟩
    refine ⟨hm, ?_⟩
    simp only [startOfDay, msPerDay] at h1 h2 ⊢
    omega
  · rintro ⟨hm, hday⟩
    refine ⟨hm, ?_, ?_⟩ <;> simp only [startOfDay, msPerDay] at hday ⊢ <;> omega

theorem hourOf_lt (t : Nat) : hourOf t < 24 := by
  simp only [hourOf, msPerDay]; omega

theorem minuteOf_lt (t : Nat) : minuteOf t < 60 := by
  simp only [minuteOf]; omega

/-- The candidate slot grid, characterised. -/
theorem mem_slotPairs_iff (p : Nat × Nat) :
    p ∈ slotPairs ↔ (9 ≤ p.1 ∧ p.1 < 18 ∧ (p.2 = 0 ∨ p.2 = 30)) := by
  have hsl : slotPairs =
      [(9, 0), (9, 30), (10, 0), (10, 30), (11, 0), (11, 30), (12, 0),
       (12, 30), (13, 0), (13, 30), (14, 0), (14, 30), (15, 0), (15, 30),
       (16, 0), (16, 30), (17, 0), (17, 30)] := by rfl
  rw [hsl]
  obtain ⟨ph, pm⟩ := p
  constructor
  · intro h
    fin_cases h <;> simp
  · rintro ⟨h1, h2, h3⟩
    simp only at h1 h2 h3
    interval_cases ph <;> rcases h3 with rfl | rfl <;> simp

/-- C9: `getAvailableTimeSlots` renders exactly the half-hour grid
[09:00, 18:00) minus the slots booked at that same hour and minute on that
calendar day, in ascending time order. -/
theorem C9_available_slots :
    ∀ (bookings : List Booking) (date : Nat),
      ∃ pairs : List (Nat × Nat),
        getAvailableTimeSlots bookings date =
          pairs.map (fun p => format12 p.1 p.2) ∧
        List.Pairwise (fun p q : Nat × Nat =>
          p.1 * 60 + p.2 < q.1 * 60 + q.2) pairs ∧
        ∀ p : Nat × Nat, (p ∈ pairs ↔
          ((9 ≤ p.1 ∧ p.1 < 18 ∧ (p.2 = 0 ∨ p.2 = 30)) ∧
           ¬ ∃ b, b ∈ bookings ∧
              b.meetingTime / msPerDay = date / msPerDay ∧
              hourOf b.meetingTime = p.1 ∧ minuteOf b.meetingTime = p.2)) := by
  intro bookings date
  refine ⟨slotPairs.filter (fun p =>
    !((getBookingsByDate bookings date).map
        (fun b => hhmm b.meetingTime)).contains (pad2 p.1 ++ ':' :: pad2 p.2)),
    rfl, ?_, ?_⟩
  · exact List.Pairwise.sublist (List.filter_sublist _) (by decide)
  · intro p
    obtain ⟨ph, pm⟩ := p
    rw [List.mem_filter, mem_slotPairs_iff]
    dsimp only
    constructor
    · rintro ⟨hrange, hpred⟩
      refine ⟨hrange, ?_⟩
      rintro ⟨b, hb, hday, hh, hm⟩
      rw [Bool.not_eq_true'] at hpred
      have hmem : (pad2 ph ++ ':' :: pad2 pm) ∈
          (getBookingsByDate bookings date).map (fun b => hhmm b.meetingTime) := by
        rw [List.mem_map]
        refine ⟨b, mem_getBookingsByDate.mpr ⟨hb, hday⟩, ?_⟩
        unfold hhmm
        rw [hh, hm]
      have hcontr : ((getBookingsByDate bookings date).map
          (fun b => hhmm b.meetingTime)).contains (pad2 ph ++ ':' :: pad2 pm) = true :=
        List.elem_iff.mpr hmem
      rw [hcontr] at hpred
      cases hpred
    · rintro ⟨hrange, hnone⟩
      refine ⟨hrange, ?_⟩
      rw [Bool.not_eq_true']
      cases hc : ((getBookingsByDate bookings date).map
          (fun b => hhmm b.meetingTime)).contains (pad2 ph ++ ':' :: pad2 pm) with
      | false => rfl
      | true =>
        exfalso
        have hmem : (pad2 ph ++ ':' :: pad2 pm) ∈
            (getBookingsByDate bookings date).map (fun b => hhmm b.meetingTime) :=
          List.elem_iff.mp hc
        rw [List.mem_map] at hmem
        obtain ⟨b, hbmem, hbeq⟩ := hmem
        obtain ⟨hb, hday⟩ := mem_getBookingsByDate.mp hbmem
        unfold hhmm at hbeq
        obtain ⟨h3, h5, h4⟩ := hrange
        rw [hhmm_eq_iff (by have := hourOf_lt b.meetingTime; omega)
            (by have := minuteOf_lt b.meetingTime; omega)
            (by omega) (by rcases h4 with rfl | rfl <;> omega)] at hbeq
        exact hnone ⟨b, hb, hday, hbeq.1, hbeq.2⟩

/-! ## Claim C4 -/

theorem isAlphaCh_isBCh {c : Char} (h : isAlphaCh c = true) : isBCh c = true := by
  simp [isBCh, h]

/-- `takeWhile` stops exactly at the first failing element. -/
theorem takeWhile_append_of {p : Char → Bool} {xs : Str} {y : Char} {ys : Str}
    (hxs : ∀ x ∈ xs, p x = true) (hy : p y = false) :
    (xs ++ y :: ys).takeWhile p = xs := by
  induction xs with
  | nil => simp [List.takeWhile_cons, hy]
  | cons x xs ih =>
    simp only [List.cons_append, List.takeWhile_cons,
      hxs x (List.mem_cons_self x xs), if_true]
    rw [ih (fun z hz => hxs z (List.mem_cons_of_mem x hz))]

/-- Decomposition of the backtracking domain matcher. -/
theorem domSplitAux_spec : ∀ {rest acc d : Str},
    domSplitAux acc rest = some d →
    ∃ mid rest', rest = mid ++ '.' :: rest' ∧
      d = acc.reverse ++ mid ++ '.' :: rest'.takeWhile isAlphaCh ∧
      2 ≤ (rest'.takeWhile isAlphaCh).length ∧
      acc.reverse ++ mid ≠ [] := by
  intro rest
  induction rest with
  | nil => intro acc d h; simp [domSplitAux] at h
  | cons c rest ih =>
    intro acc d h
    simp only [domSplitAux] at h
    cases hdeep : domSplitAux (c :: acc) rest with
    | some r =>
      rw [hdeep] at h
      have h' : some r = some d := h
      obtain rfl : r = d := Option.some.inj h'
      obtain ⟨mid', rest', heq, hd, hlen, hne⟩ := ih hdeep
      refine ⟨c :: mid', rest', by rw [heq]; rfl, ?_, hlen, ?_⟩
      · rw [hd]; simp
      · simp
    | none =>
      rw [hdeep] at h
      by_cases hcond : (c == '.' && !acc.isEmpty) = true
      · rw [if_pos hcond] at h
        by_cases hlen : 2 ≤ (rest.takeWhile isAlphaCh).length
        · rw [if_pos hlen] at h
          obtain rfl := Option.some.inj h
          rw [Bool.and_eq_true] at hcond
          have hc : c = '.' := eq_of_beq hcond.1
          refine ⟨[], rest, by rw [hc]; simp, by simp, hlen, ?_⟩
          have hne2 : acc ≠ [] := by
            intro hnil
            rw [hnil] at hcond
            simp at hcond
          simp only [List.append_nil]
          intro hnil
          exact hne2 (by simpa using congrArg List.reverse hnil)
        · rw [if_neg hlen] at h
          exact absurd h (by simp)
      · rw [if_neg hcond] at h
        exact absurd h (by simp)

/-- Characters of a `lowerStr` image satisfy a `toLower`-closed class. -/
theorem lowerStr_all {p : Char → Bool} {l : Str}
    (hcl : ∀ c, p c = true → p c.toLower = true)
    (h : ∀ c ∈ l, p c = true) : ∀ c ∈ lowerStr l, p c = true := by
  intro c hc
  rw [lowerStr, List.mem_map] at hc
  obtain ⟨x, hx, rfl⟩ := hc
  exact hcl x (h x hx)

/-- `'@'` does not occur in a list all of whose members satisfy a class
excluding it. -/
theorem at_not_mem {p : Char → Bool} {l : Str} (hp : p '@' = false)
    (h : ∀ c ∈ l, p c = true) : '@' ∉ l := by
  intro hm
  rw [h '@' hm] at hp
  cases hp

/-- The length of a split is one more than the separator count. -/
theorem splitOnChar_length (c : Char) (s : Str) :
    (splitOnChar c s).length = countChar c s + 1 := by
  induction s with
  | nil => simp [splitOnChar, countChar]
  | cons x rest ih =>
    simp only [countChar, List.countP_cons] at ih ⊢
    by_cases hx : (x == c) = true
    · rw [splitOnChar, if_pos hx]
      simp [ih, hx]
    · rw [splitOnChar, if_neg hx]
      cases hsp : splitOnChar c rest with
      | nil => exact absurd hsp (splitOnChar_ne_nil c rest)
      | cons h t =>
        rw [hsp] at ih
        simp only [List.length_cons] at ih ⊢
        simp [hx]
        omega

/-- The last component of a split at the final separator occurrence. -/
theorem splitOnChar_getLast {c : Char} {a suffix : Str} (h : c ∉ suffix) :
    (splitOnChar c (a ++ c :: suffix)).getLast? = some suffix := by
  induction a with
  | nil =>
    simp only [List.nil_append, splitOnChar, if_pos (beq_self_eq_true c)]
    rw [splitOnChar_of_not_mem h]
    rfl
  | cons x rest ih =>
    simp only [List.cons_append, splitOnChar]
    split
    · cases hsp : splitOnChar c (rest ++ c :: suffix) with
      | nil => exact absurd hsp (splitOnChar_ne_nil _ _)
      | cons hh tt =>
        rw [List.getLast?_cons_cons]
        rw [hsp] at ih
        exact ih
    · simp only [List.append_eq]
      cases hsp : splitOnChar c (rest ++ c :: suffix) with
      | nil => exact absurd hsp (splitOnChar_ne_nil _ _)
      | cons hh tt =>
        cases tt with
        | nil =>
          exfalso
          have hlen := splitOnChar_length c (rest ++ c :: suffix)
          rw [hsp] at hlen
          simp only [List.length_singleton] at hlen
          have : 1 ≤ countChar c (rest ++ c :: suffix) := by
            simp [countChar, List.countP_append, List.countP_cons]
            omega
          omega
        | cons t2 ts =>
          rw [List.getLast?_cons_cons]
          rw [hsp] at ih
          rw [← ih]
          rw [List.getLast?_cons_cons]

/-- Every address produced by the direct-email regex matcher is valid after
lower-casing. -/
theorem matchEmailAt_valid {s e : Str} (h : matchEmailAt s = some e) :
    isValidEmail (lowerStr e) = true := by
  unfold matchEmailAt at h
  dsimp only at h
  split at h
  · cases h
  · next hlne =>
    split at h
    · next rest heq =>
      cases hds : domSplit ((rest : Str).takeWhile isBCh) with
      | none => rw [hds] at h; cases h
      | some d =>
        rw [hds] at h
        cases h
        obtain ⟨mid, rest', hb, hd, hlen2, hmidne⟩ := domSplitAux_spec hds
        simp only [List.reverse_nil, List.nil_append] at hd hmidne
        set l := s.takeWhile isACh with hl
        set letters := rest'.takeWhile isAlphaCh with hlet
        have hlA : ∀ c ∈ l, isACh c = true := fun c hc => List.mem_takeWhile_imp hc
        have hbB : ∀ c ∈ (rest : Str).takeWhile isBCh, isBCh c = true :=
          fun c hc => List.mem_takeWhile_imp hc
        have hmidB : ∀ c ∈ mid, isBCh c = true := by
          intro c hc
          exact hbB c (hb ▸ List.mem_append_left _ hc)
        have hletA : ∀ c ∈ letters, isAlphaCh c = true :=
          fun c hc => List.mem_takeWhile_imp hc
        have hdB : ∀ c ∈ d, isBCh c = true := by
          intro c hc
          rw [hd] at hc
          rcases List.mem_append.mp hc with hc | hc
          · exact hmidB c hc
          · rcases List.mem_cons.mp hc with rfl | hc
            · decide
            · exact isAlphaCh_isBCh (hletA c hc)
        -- the lower-cased address and its parts
        have hmap : lowerStr (l ++ '@' :: d) = lowerStr l ++ '@' :: lowerStr d := by
          simp [lowerStr, toLower_at]
        have hLA : ∀ c ∈ lowerStr l, isACh c = true :=
          lowerStr_all (fun _ => isACh_toLower) hlA
        have hDB : ∀ c ∈ lowerStr d, isBCh c = true :=
          lowerStr_all (fun _ => isBCh_toLower) hdB
        have hnoatL : '@' ∉ lowerStr l := at_not_mem (by decide) hLA
        have hnoatD : '@' ∉ lowerStr d := at_not_mem (by decide) hDB
        have hsplit : splitOnChar '@' (lowerStr (l ++ '@' :: d)) =
            [lowerStr l, lowerStr d] := by
          rw [hmap]
          exact splitOnChar_append hnoatL hnoatD
        have hlne2 : l ≠ [] := by
          intro hnil
          exact hlne (by simp [hnil])
        have hLne : lowerStr l ≠ [] := by
          intro hnil
          apply hlne2
          cases hll : l with
          | nil => rfl
          | cons x xs => rw [hll] at hnil; simp [lowerStr] at hnil
        -- shape of the lower-cased domain
        have hdlow : lowerStr d = lowerStr mid ++ '.' :: lowerStr letters := by
          rw [hd]
          simp [lowerStr, show Char.toLower '.' = '.' from by decide]
        have hletlow : ∀ c ∈ lowerStr letters, isAlphaCh c = true :=
          lowerStr_all (fun _ => isAlphaCh_toLower) hletA
        have hletlen : (lowerStr letters).length = letters.length := by
          simp [lowerStr]
        have hmidlen : (lowerStr mid).length = mid.length := by simp [lowerStr]
        have hmidne' : mid ≠ [] := by simpa using hmidne
        -- the reversed-suffix computation of the anchored regex test
        have hrev : (lowerStr d).reverse.takeWhile (fun c => !(c == '.')) =
            (lowerStr letters).reverse := by
          rw [hdlow, List.reverse_append, List.reverse_cons, List.append_assoc,
            List.singleton_append]
          apply takeWhile_append_of
          · intro x hx
            have hax : isAlphaCh x = true := hletlow x (List.mem_reverse.mp hx)
            cases hbe : (x == '.') with
            | false => rfl
            | true =>
              exfalso
              have hxe : x = '.' := eq_of_beq hbe
              rw [hxe] at hax
              simp [isAlphaCh] at hax
          · simp
        have hmidlen1 : 1 ≤ mid.length := by
          cases hm : mid with
          | nil => exact absurd hm hmidne'
          | cons _ _ => simp
        have hdlen : (lowerStr d).length = mid.length + 1 + letters.length := by
          rw [hdlow]
          simp [hmidlen, hletlen]
          omega
        have c1 : (lowerStr l).isEmpty = false := by
          simp [List.isEmpty_iff, hLne]
        have c2 : (lowerStr l).all isACh = true := List.all_eq_true.mpr hLA
        have c3 : (lowerStr d).all isBCh = true := List.all_eq_true.mpr hDB
        have c4 : (lowerStr letters).reverse.all isAlphaCh = true := by
          rw [List.all_eq_true]
          intro c hc
          exact hletlow c (List.mem_reverse.mp hc)
        have hregex : emailRegexTest (lowerStr (l ++ '@' :: d)) = true := by
          unfold emailRegexTest
          rw [hsplit]
          simp only [hrev, c1, c2, c3, c4, List.length_reverse, hletlen,
            hdlen, Bool.not_false, Bool.true_and, Bool.and_true,
            Bool.and_eq_true, decide_eq_true_eq]
          omega
        have hletsne : (lowerStr letters).isEmpty = false := by
          rw [List.isEmpty_eq_false_iff_exists_mem]
          cases hlt : lowerStr letters with
          | nil =>
            exfalso
            have := hletlen
            rw [hlt] at this
            simp at this
            omega
          | cons x xs => exact ⟨x, by simp⟩
        have hdot : '.' ∈ lowerStr d := by
          rw [hdlow]
          exact List.mem_append_right _ (List.mem_cons_self _ _)
        have hcont : (lowerStr d).contains '.' = true := List.elem_iff.mpr hdot
        have hlast : (splitOnChar '.' (lowerStr d)).getLast? =
            some (lowerStr letters) := by
          rw [hdlow]
          apply splitOnChar_getLast
          intro hm
          have := hletlow '.' hm
          simp [isAlphaCh] at this
        unfold isValidEmail
        rw [hregex]
        simp only [Bool.not_true, if_false, Bool.false_eq_true]
        rw [hsplit]
        simp only
        rw [if_neg (by simp [List.isEmpty_iff, hLne]),
          if_neg (by simpa using hdot), hlast]
        simp only [hletsne, Bool.not_false, Bool.true_and,
          decide_eq_true_eq, hletlen]
        omega
    · cases h

set_option maxHeartbeats 2000000 in
/-- Every address returned by `parseEmailFromVoiceText` passes
`isValidEmail`: the direct branch returns a lower-cased regex match
(valid by `matchEmailAt_valid`), and the substitution branch only returns
an address after its own `isValidEmail` guard. -/
theorem parseEmail_valid {t e : Str}
    (h : parseEmailFromVoiceText t = some e) : isValidEmail e = true := by
  unfold parseEmailFromVoiceText at h
  dsimp only at h
  cases hdm : directEmailMatch (jsTrim (lowerStr t)) with
  | some e0 =>
    rw [hdm] at h
    have h' : some (lowerStr e0) = some e := h
    obtain rfl := Option.some.inj h'
    obtain ⟨s', hs'⟩ := scanFor_spec hdm
    exact matchEmailAt_valid hs'
  | none =>
    rw [hdm] at h
    by_cases hat : (!List.contains (voiceSubstituted t) '@') = true
    · rw [if_pos hat] at h
      exact Option.noConfusion h
    · rw [if_neg hat] at h
      cases hsp : splitOnChar '@' (voiceSubstituted t) with
      | nil => rw [hsp] at h; exact Option.noConfusion h
      | cons u rest =>
        cases rest with
        | nil => rw [hsp] at h; exact Option.noConfusion h
        | cons d rest2 =>
          cases rest2 with
          | cons x xs => rw [hsp] at h; exact Option.noConfusion h
          | nil =>
            rw [hsp] at h
            dsimp only at h
            cases hld : lookupDomain (List.filter (fun c => !isWs c) (jsTrim d)) with
            | some v =>
              rw [hld] at h
              dsimp only at h
              repeat' split at h
              all_goals try exact Option.noConfusion h
              all_goals obtain rfl := Option.some.inj h
              all_goals assumption
            | none =>
              rw [hld] at h
              dsimp only at h
              repeat' split at h
              all_goals try exact Option.noConfusion h
              all_goals obtain rfl := Option.some.inj h
              all_goals assumption

/-- An utterance whose normalised form already contains a full email match
passes straight through, lower-cased. -/
theorem parseEmail_direct {t e : Str}
    (h : directEmailMatch (jsTrim (lowerStr t)) = some e) :
    parseEmailFromVoiceText t = some (lowerStr e) := by
  unfold parseEmailFromVoiceText
  dsimp only
  rw [h]

/-- Without a direct match, the utterance is rejected unless the
delimiter-substituted form contains exactly one `'@'`. -/
theorem parseEmail_atCount {t : Str}
    (hdm : directEmailMatch (jsTrim (lowerStr t)) = none)
    (hcnt : countChar '@' (voiceSubstituted t) ≠ 1) :
    parseEmailFromVoiceText t = none := by
  unfold parseEmailFromVoiceText
  dsimp only
  rw [hdm]
  by_cases hat : (!List.contains (voiceSubstituted t) '@') = true
  · rw [if_pos hat]
  · rw [if_neg hat]
    have hlen := splitOnChar_length '@' (voiceSubstituted t)
    cases hsp : splitOnChar '@' (voiceSubstituted t) with
    | nil => rfl
    | cons u rest =>
      cases rest with
      | nil => rfl
      | cons d rest2 =>
        cases rest2 with
        | cons x xs => rfl
        | nil =>
          exfalso
          rw [hsp] at hlen
          simp only [List.length_cons, List.length_nil] at hlen
          exact hcnt (by omega)

/-- C4: the voice email reconstructor returns a syntactically valid
address or no match; an utterance whose normalised form already contains a
valid address passes through lower-cased; without a direct match the input
is rejected unless the delimiter substitutions ("at"/"at the rate" to `@`,
"dot"/"period" to `.`, "underscore" to `_`, "dash"/"hyphen" to `-`) leave
exactly one `@`; and on the cited examples
"john dot doe at gmail dot com" yields "john.doe@gmail.com",
"jane at the rate yahoo" yields "jane@yahoo.com" (the known provider
"yahoo" expanded with ".com"), "just some words" yields no match, and
"a@b.com" passes through unchanged. -/
theorem C4_email_reconstructor :
    (∀ t e : Str, parseEmailFromVoiceText t = some e → isValidEmail e = true) ∧
    (∀ t e : Str, directEmailMatch (jsTrim (lowerStr t)) = some e →
      parseEmailFromVoiceText t = some (lowerStr e)) ∧
    (∀ t : Str, directEmailMatch (jsTrim (lowerStr t)) = none →
      countChar '@' (voiceSubstituted t) ≠ 1 →
      parseEmailFromVoiceText t = none) ∧
    parseEmailFromVoiceText "john dot doe at gmail dot com".toList =
      some "john.doe@gmail.com".toList ∧
    parseEmailFromVoiceText "jane at the rate yahoo".toList =
      some "jane@yahoo.com".toList ∧
    parseEmailFromVoiceText "just some words".toList = none ∧
    parseEmailFromVoiceText "a@b.com".toList = some "a@b.com".toList :=
  ⟨fun _ _ h => parseEmail_valid h,
   fun _ _ h => parseEmail_direct h,
   fun _ h1 h2 => parseEmail_atCount h1 h2,
   by decide, by decide, by decide, by decide⟩

/-- Witness for C4 at the concrete utterance "john dot doe at gmail dot
com": the parser output "john.doe@gmail.com" passes `isValidEmail`. -/
theorem C4_witness :
    isValidEmail "john.doe@gmail.com".toList = true :=
  C4_email_reconstructor.1 "john dot doe at gmail dot com".toList
    "john.doe@gmail.com".toList (by decide)

end VA
